import Mathlib

/-!
Verification of iplistransform, the range-to-CIDR converter.

A shallow embedding of `src/iplistransform.c`: the line scanner `convert`,
`outputRange`, the range splitter `rangeToNetworks` and the mask arithmetic.

* C strings are `List Char` (the bytes before the terminating NUL).
* `u_int32_t` values are `Nat` below `2 ^ 32`; every operation that can leave
  that range is reduced modulo `2 ^ 32` where the C code stores it.
* `int` values that can be negative (`maskLength`, the argument of
  `maskFromLength`, `atoi`) are `Int`.
* A run that does not return normally is an `Except.error` carrying a `Fault`.
-/

namespace IpListTransform

/-! ## Data model -/

/-- The ways a call can fail to return. -/
inductive Fault where
  /-- An `assert` failed: the process aborts. -/
  | assertion
  /-- Undefined behaviour: a null pointer is written through, or a buffer is
  written past its end. -/
  | undefined
  /-- The iteration bound of the model was used up (shown never to happen). -/
  | fuel
  deriving DecidableEq, Repr

deriving instance DecidableEq for Except

/-- The statistics counters of the program (`GATHER_STATS` is defined). -/
structure Stats where
  lineCount : Nat
  singleAddressCount : Nat
  networkAddressCount : Nat
  complexRangeCount : Nat
  deriving DecidableEq, Repr

/-- A network as written: the address and the mask length printed after `/`. -/
abbrev Block := Nat × Nat

/-- What `rangeToNetworks` hands back: the malloc-ed string, and the
(address, mask length) pairs of the lines in it, in order. -/
structure Networks where
  text : List Char
  blocks : List Block
  deriving DecidableEq, Repr

/-! ## 32-bit arithmetic -/

/-- Bitwise complement of a 32-bit value (`~x`). -/
def not32 (x : Nat) : Nat := 4294967295 - x

/-- Unsigned 32-bit subtraction (`a - b`, wrapping). -/
def sub32 (a b : Nat) : Nat := (a + 4294967296 - b) % 4294967296

/-- Conversion of an `int` to `u_int32_t`. -/
def toU32 (i : Int) : Nat := (i % 4294967296).toNat

/-! ## Library functions used by the program -/

/-- The C locale `isdigit`. -/
def isdigit (c : Char) : Bool := decide (48 ≤ c.toNat ∧ c.toNat ≤ 57)

/-- The C locale `isspace`: space, and `\t \n \v \f \r`. -/
def isspace (c : Char) : Bool := decide (c.toNat = 32 ∨ (9 ≤ c.toNat ∧ c.toNat ≤ 13))

/-- The digit loop of `atoi`: accumulates decimal digits until the first
character that is not one. -/
def atoiDigits (acc : Nat) : List Char → Nat
  | [] => acc
  | c :: cs => if isdigit c then atoiDigits (acc * 10 + (c.toNat - 48)) cs else acc

/-- The sign and digits of `atoi`, after the leading white space. -/
def atoiSigned : List Char → Int
  | '-' :: cs => - (atoiDigits 0 cs : Int)
  | '+' :: cs => (atoiDigits 0 cs : Int)
  | cs => (atoiDigits 0 cs : Int)

/-- The largest value of a 64-bit `long`. -/
def LONG_MAX : Int := 9223372036854775807

/-- The smallest value of a 64-bit `long`. -/
def LONG_MIN : Int := -9223372036854775808

/-- The result of `strtol` for the mathematical value `i` of the text: values
outside the range of `long` are replaced by the nearest bound. -/
def clampLong (i : Int) : Int :=
  if i > LONG_MAX then LONG_MAX else if i < LONG_MIN then LONG_MIN else i

/-- Conversion of a `long` to `int`: the low 32 bits, read as signed. -/
def toInt32 (i : Int) : Int := (i + 2147483648) % 4294967296 - 2147483648

/-- Library `atoi`, which is `(int) strtol(s, NULL, 10)` with a 64-bit `long`:
skips white space, reads an optional sign and the decimal digits that follow,
clamps the value to the range of `long` and keeps its low 32 bits. -/
def atoi (s : List Char) : Int := toInt32 (clampLong (atoiSigned (s.dropWhile isspace)))

/-- Library `strchr(s, c)` followed by `*p++ = 0`: the text before the first `c` and
the text after it, `none` when `c` does not occur (a null pointer). -/
def strchr (c : Char) : List Char → Option (List Char × List Char)
  | [] => none
  | x :: xs =>
    if x = c then some ([], xs)
    else match strchr c xs with
      | none => none
      | some (pre, post) => some (x :: pre, post)

/-- The conversion `%d` of `printf`. -/
def printInt (i : Int) : List Char :=
  if i < 0 then '-' :: Nat.toDigits 10 i.natAbs else Nat.toDigits 10 i.toNat

/-! ## CIDR arithmetic (`maskLength`, `maskFromLength`) -/

/-- The loop of `maskLength`, `for (i = 31; i >= 0; i--)`, with `n = i + 1`
positions left to scan. -/
def maskLengthLoop (mask : Nat) : Nat → Bool → Int → Int
  | 0, _, len => len
  | i + 1, foundAZero, len =>
    if (1 <<< i) &&& mask = 1 <<< i then
      if foundAZero then -1
      else maskLengthLoop mask i foundAZero (len + 1)
    else maskLengthLoop mask i true len

/-- Function `maskLength`: the length of a CIDR netmask, or `-1`. The closing
assertion `len >= 0 && len <= 32` always holds, since `len` is incremented at
most 32 times. -/
def maskLength (mask : Nat) : Int := maskLengthLoop mask 32 false 0

/-- The loop of `maskFromLength`, `while(tmp--) mask |= 1 << tmp;`. -/
def maskFromLengthLoop : Nat → Nat → Nat
  | 0, mask => mask
  | tmp + 1, mask => maskFromLengthLoop tmp (mask ||| (1 <<< tmp))

/-- Function `maskFromLength`: asserts `0 <= length <= 32`, sets the low `length` bits
and shifts them to the top of the 32-bit word. For length 0 the shift count is
32 and the shifted value is 0, so the result is 0 whatever the shift does. -/
def maskFromLength (length : Int) : Except Fault Nat :=
  if 0 ≤ length ∧ length ≤ 32 then
    .ok ((maskFromLengthLoop length.toNat 0 <<< (32 - length.toNat)) % 4294967296)
  else .error .assertion

/-! ## Address text -/

/-- The tokenizer of `rangeToNetworks` (lines 225-241 for `begin`, 244-260 for
`end`): three `strchr(.., '.')`, each result written through, and four `atoi`,
shifted and or-ed into a `u_int32_t`. -/
def parseAddress (s : List Char) : Except Fault Nat :=
  match strchr '.' s with
  | none => .error .undefined
  | some (f0, t0) =>
    let addr := toU32 (atoi f0 * 16777216)
    match strchr '.' t0 with
    | none => .error .undefined
    | some (f1, t1) =>
      let addr := addr ||| toU32 (atoi f1 * 65536)
      match strchr '.' t1 with
      | none => .error .undefined
      | some (f2, t2) =>
        let addr := addr ||| toU32 (atoi f2 * 256)
        .ok (addr ||| toU32 (atoi t2))

/-- The address part written by `formatNetwork`: `%d.%d.%d.%d`. -/
def formatAddress (addr : Nat) : List Char :=
  printInt ((addr >>> 24 : Nat) : Int) ++ '.' :: printInt (((addr >>> 16) &&& 255 : Nat) : Int) ++
    '.' :: printInt (((addr >>> 8) &&& 255 : Nat) : Int) ++ '.' :: printInt ((addr &&& 255 : Nat) : Int)

/-- Function `formatNetwork`: the text `%d.%d.%d.%d/%d\n` put in `buf`. -/
def formatNetwork (addr : Nat) (maskLen : Int) : List Char :=
  formatAddress addr ++ '/' :: printInt maskLen ++ ['\n']

/-! ## The range splitter (`rangeToNetworks`) -/

/-- The inner loop
`while((maskLen < 32) && ((tmpAddr | ~maskFromLength(maskLen)) > endAddr)) maskLen++;`
The first argument counts the increments left before `maskLen < 32` fails. -/
def growMaskLen (endAddr tmpAddr : Nat) : Nat → Nat → Except Fault Nat
  | 0, maskLen => .ok maskLen
  | left + 1, maskLen =>
    if maskLen < 32 then
      match maskFromLength maskLen with
      | .error e => .error e
      | .ok m =>
        if (tmpAddr ||| not32 m) > endAddr then growMaskLen endAddr tmpAddr left (maskLen + 1)
        else .ok maskLen
    else .ok maskLen

/-- The splitting loop `while(tmpAddr < endAddr)` (lines 279-299) followed by
the assertion of line 301. It returns the arguments of the `formatNetwork`
calls in order; the string built by `strcat` is their concatenation. `fuel`
bounds the iterations: each writes at least one character and the assertion
stops the loop before 993 are written. -/
def splitLoop (endAddr : Nat) : Nat → Nat → Nat → Nat → Except Fault (List Block)
  | 0, _, _, _ => .error .fuel
  | fuel + 1, tmpAddr, beginAddr, writtenChars =>
    if tmpAddr < endAddr then
      match growMaskLen endAddr tmpAddr 31 1 with
      | .error e => .error e
      | .ok maskLen =>
        match maskFromLength maskLen with
        | .error e => .error e
        | .ok m =>
          let tmpAddr := tmpAddr ||| not32 m
          let toBeWritten := (formatNetwork beginAddr maskLen).length
          if writtenChars + toBeWritten < 16 * 62 + 1 then
            let tmpAddr := (tmpAddr + 1) % 4294967296
            match splitLoop endAddr fuel tmpAddr tmpAddr (writtenChars + toBeWritten) with
            | .error e => .error e
            | .ok rest => .ok ((beginAddr, maskLen) :: rest)
          else .error .assertion
    else if writtenChars < 16 * 62 + 1 then .ok [] else .error .assertion

/-- The text of a list of blocks, one `formatNetwork` line each. -/
def renderBlocks : List Block → List Char
  | [] => []
  | (addr, maskLen) :: rest => formatNetwork addr maskLen ++ renderBlocks rest

/-- Function `rangeToNetworks`: parses both ends, then either writes `begin/maskLen`
when `~(endAddr - beginAddr)` is a CIDR mask, or runs the splitting loop. The
local `buf` holds 20 bytes (`sizeof "xxx.xxx.xxx.xxx/yy\n"`). -/
def rangeToNetworks (begin_ end_ : List Char) (st : Stats) : Except Fault (Networks × Stats) :=
  match parseAddress begin_ with
  | .error e => .error e
  | .ok beginAddr =>
    match parseAddress end_ with
    | .error e => .error e
    | .ok endAddr =>
      let mask := not32 (sub32 endAddr beginAddr)
      let maskLen := maskLength mask
      if maskLen = -1 then
        match splitLoop endAddr 993 beginAddr beginAddr 0 with
        | .error e => .error e
        | .ok blocks =>
          .ok (⟨renderBlocks blocks, blocks⟩,
            { st with complexRangeCount := st.complexRangeCount + 1 })
      else
        let line := begin_ ++ '/' :: printInt maskLen ++ ['\n']
        if line.length + 1 ≤ 20 then
          .ok (⟨line, [(beginAddr, maskLen.toNat)]⟩,
            { st with networkAddressCount := st.networkAddressCount + 1 })
        else .error .undefined

/-! ## Range output (`outputRange`) -/

/-- Function `outputRange`: the text written to `out` for the range token `buf`.
When `buf` has no `-`, `strchr` gives a null pointer, `secondHalf` is that
pointer plus one (so the test `!secondHalf` does not fire) and
`firstHalfLen = secondHalf - buf - 1` is out of range: the assertion on
`firstHalfLen` fails. -/
def outputRange (buf : List Char) (st : Stats) : Except Fault (List Char × Stats) :=
  match strchr '-' buf with
  | none => .error .assertion
  | some (firstHalf, secondHalf) =>
    if firstHalf.length ≤ 15 then
      if firstHalf = secondHalf then
        .ok (firstHalf ++ ['\n'],
          { st with singleAddressCount := st.singleAddressCount + 1 })
      else
        match rangeToNetworks firstHalf secondHalf st with
        | .error e => .error e
        | .ok (nets, st') => .ok (nets.text, st')
    else .error .assertion

/-! ## Notions used to state the claims -/

/-- The netmask with `p` leading one bits, as a number. -/
def prefixMask (p : Nat) : Nat := 4294967296 - 2 ^ (32 - p)

/-- Alignment of a block: `baseAddress & ~mask(prefixLength) == 0`. -/
def aligned (b : Block) : Prop := b.1 &&& not32 (prefixMask b.2) = 0

instance (b : Block) : Decidable (aligned b) := by unfold aligned; infer_instance

/-- Membership of an address in a block: `a & mask(p) == base & mask(p)`. -/
def covers (b : Block) (a : Nat) : Prop := a &&& prefixMask b.2 = b.1 &&& prefixMask b.2

instance (b : Block) (a : Nat) : Decidable (covers b a) := by unfold covers; infer_instance

/-- The initial counters. -/
def Stats.zero : Stats := ⟨0, 0, 0, 0⟩


/-- Decimal text of `n` with `z` leading zeros. -/
def decimalField (z n : Nat) : List Char := List.replicate z '0' ++ Nat.toDigits 10 n

/-- Four fields joined by three dots. -/
def dotted (f0 f1 f2 f3 : List Char) : List Char := f0 ++ '.' :: (f1 ++ '.' :: (f2 ++ '.' :: f3))

/-- The low `n` bits of `m` are `p` ones followed by zeros. -/
def IsPrefixBits (m n p : Nat) : Prop := ∀ i, i < n → m.testBit i = decide (n - p ≤ i)

/-- Among the low `n` bits of `m` a zero stands above a one. -/
def HasGap (m n : Nat) : Prop :=
  ∃ i j, j < i ∧ i < n ∧ m.testBit i = false ∧ m.testBit j = true

/-- The text of four octets written in decimal without leading zeros. -/
def canonicalQuad (c0 c1 c2 c3 : Nat) : List Char :=
  dotted (decimalField 0 c0) (decimalField 0 c1) (decimalField 0 c2) (decimalField 0 c3)

/-- A field of a dotted-decimal string: a non-empty run of decimal digits whose
value is in 0..255. -/
def isOctetText (f : List Char) : Bool :=
  !f.isEmpty && f.all isdigit && decide (atoiDigits 0 f ≤ 255)

/-- A well-formed dotted-decimal string: four decimal octets in 0..255
separated by three dots. -/
def wellFormedDotted (s : List Char) : Bool :=
  match strchr '.' s with
  | none => false
  | some (f0, t0) =>
    match strchr '.' t0 with
    | none => false
    | some (f1, t1) =>
      match strchr '.' t1 with
      | none => false
      | some (f2, f3) => isOctetText f0 && isOctetText f1 && isOctetText f2 && isOctetText f3

/-- The top address of the block of size `2 ^ k` that contains `t`. -/
def blockTop (t k : Nat) : Nat := 2 ^ k * (t / 2 ^ k) + (2 ^ k - 1)

/-- Two blocks that follow one another in the output of the splitting loop:
the second starts just past the top of the first and has a longer prefix. -/
def Linked (b1 b2 : Block) : Prop :=
  b1.2 < b2.2 ∧ b2.1 = blockTop b1.1 (32 - b1.2) + 1

/-- The prefix length the reference greedy decomposition picks at `cursor`:
the smallest `p` such that `cursor` is aligned to `p` and the block does not
pass `endAddr`. -/
def greedyPrefix (cursor endAddr : Nat) : Nat :=
  ((List.range 33).find? (fun p =>
    decide (aligned (cursor, p)) && decide (cursor ||| not32 (prefixMask p) ≤ endAddr))).getD 32

/-- The reference greedy decomposition of the specification: while the cursor
is not past `endAddr`, emit the largest aligned block at the cursor that fits
and move the cursor just past it, stopping when that leaves the 32-bit
address space. -/
def greedyReference (endAddr : Nat) : Nat → Nat → List Block
  | 0, _ => []
  | fuel + 1, cursor =>
    if cursor ≤ endAddr then
      let p := greedyPrefix cursor endAddr
      let top := cursor ||| not32 (prefixMask p)
      (cursor, p) :: (if top + 1 < 4294967296 then greedyReference endAddr fuel (top + 1) else [])
    else []

/-! ## The line scanner (`convert`) -/

/-- The text of a C string held in a buffer: the bytes before the first NUL. -/
def cstr (l : List Char) : List Char := l.takeWhile (fun c => c ≠ '\x00')

/-- A line terminator, `\r` or `\n`. -/
def isTerminator (c : Char) : Bool := c = '\r' || c = '\n'

/-- A byte of a range token: a decimal digit, `-` or `.` (the complement of
the test of lines 152-153). -/
def isRangeChar (c : Char) : Bool := isdigit c || c = '-' || c = '.'

/-- The local variables of `convert` between two bytes: `savedLine` holds the
`lineBufCount` bytes stored for the current line, `buf` the `bufCount` bytes
stored for the range token. -/
structure Scan where
  savedLine : List Char
  buf : List Char
  isReadingGarbage : Bool
  deriving DecidableEq, Repr

/-- What reading one byte makes `convert` do besides updating its variables. -/
inductive Event where
  /-- Nothing is counted or written. -/
  | none
  /-- A terminator read in the garbage state: the line is counted and dropped. -/
  | skipped
  /-- A terminator read in the range state: the line is counted and the two
  buffers go downstream, `savedLine` (its terminator overwritten by NUL, given
  here without it) to `fprintf` and `buf` to `outputRange`. -/
  | record (line token : List Char)
  deriving DecidableEq, Repr

/-- The first assertion made on a terminator in the range state (line 138),
on the line buffer that already holds the terminator: `lineBufCount > 1`. -/
def assertLineBufCount (savedLine : List Char) : Bool := decide (savedLine.length > 1)

/-- The second assertion made on a terminator in the range state (line 144):
`savedLine[0] != '\r' && savedLine[0] != '\n'`. -/
def assertFirstByte (savedLine : List Char) : Bool :=
  match savedLine with
  | [] => true
  | c :: _ => !isTerminator c

/-- The body of the reading loop of `convert` for one byte (lines 116-159)
without the two output calls. `buf` holds 32 bytes
(`sizeof "xxx.xxx.xxx.xxx-xxx.xxx.xxx.xxx"`) and `savedLine` 1024. Storing a
33rd token byte writes one past `buf` and the assertion that follows fails;
terminating a 32-byte token writes its NUL one past `buf` with nothing to
stop it. -/
def scanByte (s : Scan) (currentChar : Char) : Except Fault (Scan × Event) :=
  if s.savedLine.length < 1024 then
    let savedLine := s.savedLine ++ [currentChar]
    if s.isReadingGarbage then
      if isTerminator currentChar then
        .ok ({ s with savedLine := [] }, .skipped)
      else if currentChar = ':' then
        .ok ({ savedLine := savedLine, buf := [], isReadingGarbage := false }, .none)
      else .ok ({ s with savedLine := savedLine }, .none)
    else
      if isTerminator currentChar then
        if assertLineBufCount savedLine then
          if s.buf.length < 32 then
            if assertFirstByte savedLine then
              .ok ({ savedLine := [], buf := s.buf, isReadingGarbage := true },
                .record savedLine.dropLast (cstr s.buf))
            else .error .assertion
          else .error .undefined
        else .error .assertion
      else if !isRangeChar currentChar then
        .ok ({ s with savedLine := savedLine, isReadingGarbage := true }, .none)
      else
        if s.buf.length + 1 ≤ 32 then
          .ok ({ s with savedLine := savedLine, buf := s.buf ++ [currentChar] }, .none)
        else .error .assertion
  else .error .assertion

/-- The two output calls made for a record (lines 147-150): the comment line
`# <savedLine>` unless the string in `savedLine` is empty, then `outputRange`. -/
def emitRecord (line token : List Char) (out : List Char) (st : Stats) :
    Except Fault (List Char × Stats) :=
  let out := if line.head? ≠ some '\x00' then out ++ '#' :: ' ' :: cstr line ++ ['\n'] else out
  match outputRange token st with
  | .error e => .error e
  | .ok (text, st') => .ok (out ++ text, st')

/-- The state of `convert` between two bytes: its variables, the text written
to `out` so far and the counters. -/
structure Conv where
  scan : Scan
  out : List Char
  stats : Stats
  deriving DecidableEq, Repr

/-- One pass of the reading loop of `convert`. -/
def convertStep (s : Conv) (currentChar : Char) : Except Fault Conv :=
  match scanByte s.scan currentChar with
  | .error e => .error e
  | .ok (scan, .none) => .ok { s with scan := scan }
  | .ok (scan, .skipped) =>
    .ok { s with scan := scan, stats := { s.stats with lineCount := s.stats.lineCount + 1 } }
  | .ok (scan, .record line token) =>
    match emitRecord line token s.out { s.stats with lineCount := s.stats.lineCount + 1 } with
    | .error e => .error e
    | .ok (out, st) => .ok { scan := scan, out := out, stats := st }

/-- The reading loop of `convert`, `while((currentChar = fgetc(in)) != -1)`,
over the bytes left in the input. -/
def convertLoop : Conv → List Char → Except Fault Conv
  | s, [] => .ok s
  | s, c :: cs =>
    match convertStep s c with
    | .error e => .error e
    | .ok s' => convertLoop s' cs

/-- The variables of `convert` at the start of a line: nothing stored for the
line, garbage state. -/
def Scan.fresh (buf : List Char) : Scan :=
  { savedLine := [], buf := buf, isReadingGarbage := true }

/-- Function `convert`: the text written to `out` for the bytes of `in`, and
the counters. -/
def convert (input : List Char) (st : Stats) : Except Fault (List Char × Stats) :=
  match convertLoop { scan := Scan.fresh [], out := [], stats := st } input with
  | .error e => .error e
  | .ok s => .ok (s.out, s.stats)

/-- The lines of a text, each followed by the terminator `term`. -/
def joinLines (term : List Char) : List (List Char) → List Char
  | [] => []
  | l :: ls => l ++ term ++ joinLines term ls

/-- The state of `convert` with the line counter set to `n`. -/
def Conv.withLineCount (s : Conv) (n : Nat) : Conv :=
  { s with stats := { s.stats with lineCount := n } }

/-- What holds of the variables of `convert` between any two bytes: the line
buffer holds no terminator, the token buffer holds only token bytes, and in
the range state the line buffer ends with a colon followed by the token
buffer. -/
def ScanInv (sc : Scan) : Prop :=
  (∀ c ∈ sc.savedLine, isTerminator c = false) ∧
  (∀ c ∈ sc.buf, isRangeChar c = true) ∧
  (sc.isReadingGarbage = false → ∃ g, sc.savedLine = g ++ ':' :: sc.buf)

/-! # Lemmas -/

/-! ## Facts about masks -/

theorem maskFromLength_ok (p : Nat) (hp : p ≤ 32) :
    maskFromLength (p : Int) = .ok (prefixMask p) := by
  interval_cases p <;> rfl

theorem not32_prefixMask (p : Nat) (hp : p ≤ 32) :
    not32 (prefixMask p) = 2 ^ (32 - p) - 1 := by
  interval_cases p <;> rfl

theorem prefixMask_testBit : ∀ p, p ≤ 32 → ∀ i, i < 32 →
    (prefixMask p).testBit i = decide (32 - p ≤ i) := by decide

theorem prefixMask_lt (p : Nat) : prefixMask p < 4294967296 := by
  have : 0 < 2 ^ (32 - p) := Nat.pow_pos (by decide)
  unfold prefixMask
  omega

theorem bit_test_iff (i mask : Nat) :
    ((1 <<< i) &&& mask = 1 <<< i) ↔ mask.testBit i = true := by
  rw [Nat.one_shiftLeft]
  constructor
  · intro h
    have := congrArg (fun x => Nat.testBit x i) h
    simpa [Nat.testBit_and, Nat.testBit_two_pow_self] using this
  · intro h
    apply Nat.eq_of_testBit_eq
    intro j
    rw [Nat.testBit_and, Nat.testBit_two_pow]
    by_cases hij : i = j
    · subst hij; simp [h]
    · simp [hij]

theorem maskLengthLoop_found (m : Nat) (n : Nat) (len : Int) :
    (maskLengthLoop m n true len = len ∧ ∀ i, i < n → m.testBit i = false) ∨
    (maskLengthLoop m n true len = -1 ∧ ∃ j, j < n ∧ m.testBit j = true) := by
  induction n with
  | zero => left; exact ⟨rfl, fun i hi => absurd hi (Nat.not_lt_zero i)⟩
  | succ n ih =>
    unfold maskLengthLoop
    by_cases hb : m.testBit n = true
    · right
      rw [if_pos ((bit_test_iff n m).2 hb)]
      exact ⟨by simp, n, Nat.lt_succ_self n, hb⟩
    · rw [if_neg (fun h => hb ((bit_test_iff n m).1 h))]
      rcases ih with ⟨h1, h2⟩ | ⟨h1, j, hj, hjb⟩
      · left
        refine ⟨h1, fun i hi => ?_⟩
        rcases Nat.lt_succ_iff_lt_or_eq.1 hi with h | h
        · exact h2 i h
        · subst h; simpa using hb
      · right
        exact ⟨h1, j, Nat.lt_succ_of_lt hj, hjb⟩

theorem maskLengthLoop_scan (m : Nat) (n : Nat) :
    ∀ len : Int, (∃ p, p ≤ n ∧ maskLengthLoop m n false len = len + p ∧ IsPrefixBits m n p) ∨
      (maskLengthLoop m n false len = -1 ∧ HasGap m n) := by
  induction n with
  | zero =>
    intro len
    left
    exact ⟨0, Nat.le_refl 0, by simp [maskLengthLoop], fun i hi => absurd hi (Nat.not_lt_zero i)⟩
  | succ n ih =>
    intro len
    unfold maskLengthLoop
    by_cases hb : m.testBit n = true
    · rw [if_pos ((bit_test_iff n m).2 hb)]
      simp only [Bool.false_eq_true, if_false]
      rcases ih (len + 1) with ⟨p, hp, h1, h2⟩ | ⟨h1, i, j, hji, hin, hi, hj⟩
      · left
        refine ⟨p + 1, Nat.succ_le_succ hp, by rw [h1]; push_cast; ring, fun i hi => ?_⟩
        rcases Nat.lt_succ_iff_lt_or_eq.1 hi with h | h
        · rw [h2 i h]
          simp only [decide_eq_decide]
          omega
        · subst h
          rw [hb]
          simp
      · right
        exact ⟨h1, i, j, hji, Nat.lt_succ_of_lt hin, hi, hj⟩
    · rw [if_neg (fun h => hb ((bit_test_iff n m).1 h))]
      have hb' : m.testBit n = false := by simpa using hb
      rcases maskLengthLoop_found m n len with ⟨h1, h2⟩ | ⟨h1, j, hj, hjb⟩
      · left
        refine ⟨0, Nat.zero_le _, by simp [h1], fun i hi => ?_⟩
        rcases Nat.lt_succ_iff_lt_or_eq.1 hi with h | h
        · rw [h2 i h]
          symm
          simp only [decide_eq_false_iff_not]
          omega
        · subst h
          rw [hb']
          symm
          simp only [decide_eq_false_iff_not]
          omega
      · right
        exact ⟨h1, n, j, hj, Nat.lt_succ_self n, hb', hjb⟩

theorem IsPrefixBits.unique {m n p q : Nat} (hp : p ≤ n) (hq : q ≤ n)
    (h1 : IsPrefixBits m n p) (h2 : IsPrefixBits m n q) : p = q := by
  by_contra hne
  rcases Nat.lt_or_gt_of_ne hne with h | h
  · have a := h1 (n - q) (by omega)
    have b := h2 (n - q) (by omega)
    rw [a] at b
    simp only [decide_eq_decide] at b
    omega
  · have a := h1 (n - p) (by omega)
    have b := h2 (n - p) (by omega)
    rw [a] at b
    simp only [decide_eq_decide] at b
    omega

theorem IsPrefixBits.not_gap {m n p : Nat} (h1 : IsPrefixBits m n p) : ¬ HasGap m n := by
  rintro ⟨i, j, hji, hin, hi, hj⟩
  have a := h1 i hin
  have b := h1 j (by omega)
  rw [hi] at a
  rw [hj] at b
  have a' : ¬ (n - p ≤ i) := by simpa using a.symm
  have b' : n - p ≤ j := by simpa using b.symm
  omega

theorem isPrefixBits_iff_eq (m p : Nat) (hm : m < 4294967296) (hp : p ≤ 32) :
    IsPrefixBits m 32 p ↔ m = prefixMask p := by
  constructor
  · intro h
    apply Nat.eq_of_testBit_eq
    intro i
    by_cases hi : i < 32
    · rw [h i hi, prefixMask_testBit p hp i hi]
    · have h32 : (4294967296 : Nat) ≤ 2 ^ i :=
        (by decide : (4294967296 : Nat) = 2 ^ 32) ▸ Nat.pow_le_pow_right (by decide) (by omega)
      rw [Nat.testBit_lt_two_pow (Nat.lt_of_lt_of_le hm h32),
        Nat.testBit_lt_two_pow (Nat.lt_of_lt_of_le (prefixMask_lt p) h32)]
  · intro h i hi
    rw [h, prefixMask_testBit p hp i hi]

theorem maskLength_prefixMask (p : Nat) (hp : p ≤ 32) : maskLength (prefixMask p) = p := by
  interval_cases p <;> rfl

/-! ## Facts about decimal text -/

theorem digitChar_facts : ∀ d, d < 10 →
    isdigit (Nat.digitChar d) = true ∧ (Nat.digitChar d).toNat - 48 = d := by decide

theorem isdigit_ne {c : Char} (h : isdigit c = true) :
    isspace c = false ∧ c ≠ '-' ∧ c ≠ '+' ∧ c ≠ '.' := by
  refine ⟨?_, ?_, ?_, ?_⟩
  · simp only [isdigit, isspace, decide_eq_true_eq, decide_eq_false_iff_not] at h ⊢
    omega
  · rintro rfl; exact absurd h (by decide)
  · rintro rfl; exact absurd h (by decide)
  · rintro rfl; exact absurd h (by decide)

theorem toDigitsCore_eq (n : Nat) : ∀ f ds, n < f →
    Nat.toDigitsCore 10 f n ds = Nat.toDigits 10 n ++ ds := by
  induction n using Nat.strong_induction_on with
  | _ n ih =>
    intro f ds h
    cases f with
    | zero => exact absurd h (Nat.not_lt_zero n)
    | succ f =>
      by_cases h0 : n / 10 = 0
      · simp [Nat.toDigits, Nat.toDigitsCore, h0]
      · have hlt : n / 10 < n := by omega
        have hf : n / 10 < f := by omega
        simp only [Nat.toDigits, Nat.toDigitsCore, h0, if_false]
        rw [ih (n / 10) hlt f _ hf, ih (n / 10) hlt n _ hlt]
        simp

theorem toDigits_small (n : Nat) (h : n < 10) : Nat.toDigits 10 n = [Nat.digitChar n] := by
  have h0 : n / 10 = 0 := by omega
  have h1 : n % 10 = n := by omega
  simp [Nat.toDigits, Nat.toDigitsCore, h0, h1]

theorem toDigits_step (n : Nat) (h : 10 ≤ n) :
    Nat.toDigits 10 n = Nat.toDigits 10 (n / 10) ++ [Nat.digitChar (n % 10)] := by
  have h0 : ¬ n / 10 = 0 := by omega
  have hlt : n / 10 < n := by omega
  conv => lhs; unfold Nat.toDigits Nat.toDigitsCore
  simp only [h0, if_false]
  rw [toDigitsCore_eq (n / 10) n _ hlt]

theorem atoiDigits_append (xs ys : List Char) (h : ∀ c ∈ xs, isdigit c = true) :
    ∀ acc, atoiDigits acc (xs ++ ys) = atoiDigits (atoiDigits acc xs) ys := by
  induction xs with
  | nil => intro acc; rfl
  | cons x xs ih =>
    intro acc
    have hx : isdigit x = true := h x (List.mem_cons_self x xs)
    simp only [List.cons_append, atoiDigits, hx, if_true]
    exact ih (fun c hc => h c (List.mem_cons_of_mem x hc)) _

theorem toDigits_spec (n : Nat) :
    (∀ c ∈ Nat.toDigits 10 n, isdigit c = true) ∧ atoiDigits 0 (Nat.toDigits 10 n) = n := by
  induction n using Nat.strong_induction_on with
  | _ n ih =>
    by_cases h : n < 10
    · rw [toDigits_small n h]
      have hd := digitChar_facts n h
      refine ⟨fun c hc => ?_, ?_⟩
      · rw [List.mem_singleton] at hc; rw [hc]; exact hd.1
      · simp [atoiDigits, hd.1, hd.2]
    · have hge : 10 ≤ n := by omega
      rw [toDigits_step n hge]
      have hd := digitChar_facts (n % 10) (Nat.mod_lt n (by decide))
      have hi := ih (n / 10) (by omega)
      refine ⟨fun c hc => ?_, ?_⟩
      · rcases List.mem_append.1 hc with hc | hc
        · exact hi.1 c hc
        · rw [List.mem_singleton] at hc; rw [hc]; exact hd.1
      · rw [atoiDigits_append _ _ hi.1, hi.2]
        simp only [atoiDigits, hd.1, if_true, hd.2]
        omega

theorem atoiDigits_zeros (z : Nat) (xs : List Char) :
    atoiDigits 0 (List.replicate z '0' ++ xs) = atoiDigits 0 xs := by
  induction z with
  | zero => rfl
  | succ z ih =>
    simp only [List.replicate_succ, List.cons_append, atoiDigits]
    rw [if_pos (by decide)]
    simpa using ih

theorem atoi_of_digits (ds : List Char) (h : ∀ c ∈ ds, isdigit c = true) :
    atoi ds = toInt32 (clampLong (atoiDigits 0 ds : Int)) := by
  cases ds with
  | nil => rfl
  | cons c cs =>
    have hc := isdigit_ne (h c (List.mem_cons_self c cs))
    unfold atoi
    rw [List.dropWhile_cons_of_neg (by simp [hc.1])]
    unfold atoiSigned
    split
    · rename_i heq; injection heq with h1 _; exact absurd h1 hc.2.1
    · rename_i heq; injection heq with h1 _; exact absurd h1 hc.2.2.1
    · rfl

theorem strchr_append (c : Char) (xs rest : List Char) (h : ∀ x ∈ xs, x ≠ c) :
    strchr c (xs ++ c :: rest) = some (xs, rest) := by
  induction xs with
  | nil => simp [strchr]
  | cons x xs ih =>
    have hx : x ≠ c := h x (List.mem_cons_self x xs)
    show strchr c (x :: (xs ++ c :: rest)) = _
    rw [strchr, if_neg hx, ih (fun y hy => h y (List.mem_cons_of_mem x hy))]

theorem decimalField_digits (z n : Nat) :
    ∀ c ∈ decimalField z n, isdigit c = true := by
  intro c hc
  rcases List.mem_append.1 hc with hc | hc
  · rw [List.eq_of_mem_replicate hc]; decide
  · exact (toDigits_spec n).1 c hc

theorem atoi_decimalField (z n : Nat) (hn : n < 9223372036854775808) :
    atoi (decimalField z n) = toInt32 (n : Int) := by
  rw [atoi_of_digits _ (decimalField_digits z n)]
  unfold decimalField
  rw [atoiDigits_zeros, (toDigits_spec n).2]
  unfold clampLong LONG_MAX LONG_MIN
  rw [if_neg (by omega), if_neg (by omega)]

/-- A decimal field of `2 ^ 63` or more is read as `-1`. -/
theorem atoi_decimalField_clamped (z n : Nat) (hn : 9223372036854775808 ≤ n) :
    atoi (decimalField z n) = -1 := by
  rw [atoi_of_digits _ (decimalField_digits z n)]
  unfold decimalField
  rw [atoiDigits_zeros, (toDigits_spec n).2]
  unfold clampLong LONG_MAX
  rw [if_pos (by omega)]
  rfl

theorem toU32_toInt32_mul (c : Nat) :
    toU32 (toInt32 (c : Int) * 16777216) = (c * 16777216) % 4294967296 ∧
    toU32 (toInt32 (c : Int) * 65536) = (c * 65536) % 4294967296 ∧
    toU32 (toInt32 (c : Int) * 256) = (c * 256) % 4294967296 ∧
    toU32 (toInt32 (c : Int)) = c % 4294967296 := by
  unfold toU32 toInt32
  refine ⟨?_, ?_, ?_, ?_⟩ <;> omega

theorem strchr_decimalField (z n : Nat) (rest : List Char) :
    strchr '.' (decimalField z n ++ '.' :: rest) = some (decimalField z n, rest) :=
  strchr_append '.' _ rest (fun x hx => (isdigit_ne (decimalField_digits z n x hx)).2.2.2)

theorem toU32_natCast_mul (c k : Nat) : toU32 ((c : Int) * (k : Int)) = (c * k) % 4294967296 := by
  unfold toU32
  have : ((c : Int) * (k : Int)) % 4294967296 = (((c * k) % 4294967296 : Nat) : Int) := by
    push_cast; rfl
  rw [this, Int.toNat_ofNat]

theorem toU32_natCast (c : Nat) : toU32 (c : Int) = c % 4294967296 := by
  unfold toU32
  have : (c : Int) % 4294967296 = ((c % 4294967296 : Nat) : Int) := by
    push_cast; rfl
  rw [this, Int.toNat_ofNat]

theorem or_mod_two_pow (a b n : Nat) : (a ||| b) % 2 ^ n = a % 2 ^ n ||| b % 2 ^ n := by
  apply Nat.eq_of_testBit_eq
  intro i
  simp only [Nat.testBit_mod_two_pow, Nat.testBit_or]
  cases decide (i < n) <;> simp

theorem parseAddress_dotted (c0 c1 c2 c3 z0 z1 z2 z3 : Nat)
    (h0 : c0 < 9223372036854775808) (h1 : c1 < 9223372036854775808)
    (h2 : c2 < 9223372036854775808) (h3 : c3 < 9223372036854775808) :
    parseAddress (dotted (decimalField z0 c0) (decimalField z1 c1) (decimalField z2 c2)
      (decimalField z3 c3)) =
    .ok (((c0 <<< 24) ||| (c1 <<< 16) ||| (c2 <<< 8) ||| c3) % 4294967296) := by
  unfold parseAddress dotted
  rw [strchr_decimalField]
  simp only
  rw [strchr_decimalField]
  simp only
  rw [strchr_decimalField]
  simp only
  rw [atoi_decimalField z0 c0 h0, atoi_decimalField z1 c1 h1, atoi_decimalField z2 c2 h2,
    atoi_decimalField z3 c3 h3]
  rw [(toU32_toInt32_mul c0).1, (toU32_toInt32_mul c1).2.1, (toU32_toInt32_mul c2).2.2.1,
    (toU32_toInt32_mul c3).2.2.2]
  have h32 : (4294967296 : Nat) = 2 ^ 32 := by decide
  rw [h32, or_mod_two_pow, or_mod_two_pow, or_mod_two_pow]
  simp only [Nat.shiftLeft_eq]

theorem printInt_natCast (n : Nat) : printInt (n : Int) = Nat.toDigits 10 n := by
  unfold printInt
  rw [if_neg (by omega), Int.toNat_ofNat]

theorem packed_eq (c0 c1 c2 c3 : Nat) (h1 : c1 ≤ 255) (h2 : c2 ≤ 255) (h3 : c3 ≤ 255) :
    (c0 <<< 24) ||| (c1 <<< 16) ||| (c2 <<< 8) ||| c3 =
      c0 * 16777216 + c1 * 65536 + c2 * 256 + c3 := by
  simp only [Nat.shiftLeft_eq]
  have a : 2 ^ 24 * c0 + c1 * 2 ^ 16 = 2 ^ 24 * c0 ||| c1 * 2 ^ 16 :=
    Nat.mul_add_lt_is_or (by omega) c0
  have b : 2 ^ 16 * (256 * c0 + c1) + c2 * 2 ^ 8 = 2 ^ 16 * (256 * c0 + c1) ||| c2 * 2 ^ 8 :=
    Nat.mul_add_lt_is_or (by omega) _
  have c : 2 ^ 8 * (65536 * c0 + 256 * c1 + c2) + c3 = 2 ^ 8 * (65536 * c0 + 256 * c1 + c2) ||| c3 :=
    Nat.mul_add_lt_is_or (by omega) _
  have e1 : c0 * 2 ^ 24 ||| c1 * 2 ^ 16 = 2 ^ 16 * (256 * c0 + c1) := by
    rw [Nat.mul_comm c0, ← a]; omega
  have e2 : 2 ^ 16 * (256 * c0 + c1) ||| c2 * 2 ^ 8 = 2 ^ 8 * (65536 * c0 + 256 * c1 + c2) := by
    rw [← b]; omega
  rw [e1, e2, ← c]
  omega

theorem formatAddress_packed (c0 c1 c2 c3 : Nat) (h1 : c1 ≤ 255)
    (h2 : c2 ≤ 255) (h3 : c3 ≤ 255) :
    formatAddress (c0 * 16777216 + c1 * 65536 + c2 * 256 + c3) =
      dotted (decimalField 0 c0) (decimalField 0 c1) (decimalField 0 c2) (decimalField 0 c3) := by
  have m : ∀ x : Nat, x &&& 255 = x % 256 := fun x => Nat.and_pow_two_sub_one_eq_mod x 8
  unfold formatAddress dotted decimalField
  simp only [printInt_natCast, Nat.shiftRight_eq_div_pow, m, List.replicate_zero, List.nil_append]
  have e0 : (c0 * 16777216 + c1 * 65536 + c2 * 256 + c3) / 2 ^ 24 = c0 := by omega
  have e1 : (c0 * 16777216 + c1 * 65536 + c2 * 256 + c3) / 2 ^ 16 % 256 = c1 := by omega
  have e2 : (c0 * 16777216 + c1 * 65536 + c2 * 256 + c3) / 2 ^ 8 % 256 = c2 := by omega
  have e3 : (c0 * 16777216 + c1 * 65536 + c2 * 256 + c3) % 256 = c3 := by omega
  rw [e0, e1, e2, e3]
  simp

/-! ## Facts about 32-bit addresses -/

theorem toU32_lt (i : Int) : toU32 i < 4294967296 := by
  unfold toU32
  have h := Int.emod_lt_of_pos i (show (0 : Int) < 4294967296 by decide)
  have h0 := Int.emod_nonneg i (show (4294967296 : Int) ≠ 0 by decide)
  omega

theorem or_lt_u32 {a b : Nat} (ha : a < 4294967296) (hb : b < 4294967296) :
    a ||| b < 4294967296 :=
  Nat.or_lt_two_pow (n := 32) ha hb

theorem parseAddress_lt {s : List Char} {a : Nat} (h : parseAddress s = .ok a) :
    a < 4294967296 := by
  unfold parseAddress at h
  split at h
  · cases h
  · split at h
    · cases h
    · split at h
      · cases h
      · injection h with h
        rw [← h]
        exact or_lt_u32 (or_lt_u32 (or_lt_u32 (toU32_lt _) (toU32_lt _)) (toU32_lt _)) (toU32_lt _)

theorem low_or_mask {r k : Nat} (hr : r < 2 ^ k) : r ||| (2 ^ k - 1) = 2 ^ k - 1 := by
  apply Nat.eq_of_testBit_eq
  intro i
  rw [Nat.testBit_or, Nat.testBit_two_pow_sub_one]
  by_cases hi : i < k
  · simp [hi]
  · have : 2 ^ k ≤ 2 ^ i := Nat.pow_le_pow_right (by decide) (by omega)
    rw [Nat.testBit_lt_two_pow (Nat.lt_of_lt_of_le hr this)]
    simp [hi]

/-- The top address of the size `2 ^ k` block around `t`. -/
theorem or_low_mask (t k : Nat) : t ||| (2 ^ k - 1) = 2 ^ k * (t / 2 ^ k) + (2 ^ k - 1) := by
  have hpos : 0 < 2 ^ k := Nat.pow_pos (by decide)
  have hr : t % 2 ^ k < 2 ^ k := Nat.mod_lt t hpos
  have ht : t = 2 ^ k * (t / 2 ^ k) ||| t % 2 ^ k := by
    rw [← Nat.mul_add_lt_is_or hr, Nat.div_add_mod]
  have hm : 2 ^ k - 1 < 2 ^ k := by omega
  conv => lhs; rw [ht]
  rw [Nat.lor_assoc, low_or_mask hr, ← Nat.mul_add_lt_is_or hm]

theorem and_low_mask (t k : Nat) : t &&& (2 ^ k - 1) = t % 2 ^ k :=
  Nat.and_pow_two_sub_one_eq_mod t k

/-! ## Facts about the splitting loop -/

theorem or_not32_prefixMask (t p : Nat) (hp : p ≤ 32) :
    t ||| not32 (prefixMask p) = blockTop t (32 - p) := by
  rw [not32_prefixMask p hp, or_low_mask]
  rfl

theorem le_blockTop (t k : Nat) : t ≤ blockTop t k := by
  have hpos : 0 < 2 ^ k := Nat.pow_pos (by decide)
  have h1 := Nat.div_add_mod t (2 ^ k)
  have h2 := Nat.mod_lt t hpos
  unfold blockTop
  omega

theorem blockTop_succ (t k : Nat) :
    blockTop t (k + 1) = blockTop t k ∨ blockTop t (k + 1) = blockTop t k + 2 ^ k := by
  have hpos : 0 < 2 ^ k := Nat.pow_pos (by decide)
  have hd : t / 2 ^ (k + 1) = t / 2 ^ k / 2 := by
    rw [Nat.pow_succ, Nat.div_div_eq_div_mul]
  unfold blockTop
  rw [hd, Nat.pow_succ]
  generalize 2 ^ k = X at hpos
  generalize t / X = a
  have ha := Nat.div_add_mod a 2
  have hm := Nat.mod_lt a (show 0 < 2 by decide)
  have e1 : X * 2 * (a / 2) = 2 * (X * (a / 2)) := by ring
  have e2 : X * a = 2 * (X * (a / 2)) + X * (a % 2) := by
    conv => lhs; rw [← ha]
    ring
  rcases Nat.lt_succ_iff_lt_or_eq.1 hm with h | h
  · have h0 : a % 2 = 0 := by omega
    rw [h0, Nat.mul_zero] at e2
    right
    omega
  · rw [h, Nat.mul_one] at e2
    left
    omega

theorem blockTop_mono (t k j : Nat) (h : k ≤ j) : blockTop t k ≤ blockTop t j := by
  induction j with
  | zero =>
    have : k = 0 := by omega
    rw [this]
  | succ j ih =>
    rcases Nat.lt_succ_iff_lt_or_eq.1 (Nat.lt_succ_of_le h) with h1 | h1
    · have := ih (by omega)
      have hpos : 0 < 2 ^ j := Nat.pow_pos (by decide)
      rcases blockTop_succ t j with e | e <;> omega
    · rw [h1]

theorem blockTop_next (t k : Nat) : blockTop (blockTop t k + 1) k = blockTop t k + 2 ^ k := by
  have hpos : 0 < 2 ^ k := Nat.pow_pos (by decide)
  have e : blockTop t k + 1 = 2 ^ k * (t / 2 ^ k + 1) := by
    unfold blockTop
    rw [Nat.mul_add, Nat.mul_one]
    omega
  rw [e]
  unfold blockTop
  rw [Nat.mul_div_cancel_left _ hpos, Nat.mul_add, Nat.mul_one]
  omega

theorem next_top {t k e : Nat} (h1 : blockTop t k ≤ e) (h2 : e < blockTop t (k + 1)) :
    ∀ j, k ≤ j → e < blockTop (blockTop t k + 1) j := by
  intro j hj
  have hm := blockTop_mono (blockTop t k + 1) k j hj
  have hn := blockTop_next t k
  rcases blockTop_succ t k with e1 | e1 <;> omega

theorem growMaskLen_spec (e t : Nat) : ∀ left maskLen, maskLen + left = 32 →
    ∃ q, growMaskLen e t left maskLen = .ok q ∧ maskLen ≤ q ∧ q ≤ 32 ∧
      (q < 32 → blockTop t (32 - q) ≤ e) ∧
      ∀ r, maskLen ≤ r → r < q → e < blockTop t (32 - r) := by
  intro left
  induction left with
  | zero =>
    intro maskLen h
    exact ⟨maskLen, rfl, Nat.le_refl _, by omega, fun hq => by omega, fun r h1 h2 => by omega⟩
  | succ left ih =>
    intro maskLen h
    have hlt : maskLen < 32 := by omega
    unfold growMaskLen
    rw [if_pos hlt, maskFromLength_ok maskLen (by omega)]
    simp only
    rw [or_not32_prefixMask t maskLen (by omega)]
    by_cases hc : blockTop t (32 - maskLen) > e
    · rw [if_pos hc]
      obtain ⟨q, h1, h2, h3, h4, h5⟩ := ih (maskLen + 1) (by omega)
      refine ⟨q, h1, by omega, h3, h4, fun r hr1 hr2 => ?_⟩
      rcases Nat.lt_or_ge maskLen r with hr | hr
      · exact h5 r hr hr2
      · have : r = maskLen := by omega
        rw [this]
        exact hc
    · rw [if_neg hc]
      exact ⟨maskLen, rfl, Nat.le_refl _, by omega, fun _ => by omega, fun r h1 h2 => by omega⟩

theorem formatNetwork_length_pos (addr : Nat) (maskLen : Int) :
    0 < (formatNetwork addr maskLen).length := by
  unfold formatNetwork
  simp

/-- One pass of the splitting loop, with the inner loop and the mask
resolved. -/
theorem splitLoop_step (e fuel t b w : Nat) (ht : t < e) :
    ∃ q, 1 ≤ q ∧ q ≤ 32 ∧ blockTop t (32 - q) ≤ e ∧
      (∀ r, 1 ≤ r → r < q → e < blockTop t (32 - r)) ∧
      splitLoop e (fuel + 1) t b w =
        if w + (formatNetwork b q).length < 16 * 62 + 1 then
          match splitLoop e fuel ((blockTop t (32 - q) + 1) % 4294967296)
              ((blockTop t (32 - q) + 1) % 4294967296) (w + (formatNetwork b q).length) with
          | .error err => .error err
          | .ok rest => .ok ((b, q) :: rest)
        else .error .assertion := by
  obtain ⟨q, h1, h2, h3, h4, h5⟩ := growMaskLen_spec e t 31 1 rfl
  have htop : blockTop t (32 - q) ≤ e := by
    rcases Nat.lt_or_ge q 32 with h | h
    · exact h4 h
    · have hq : q = 32 := by omega
      have : blockTop t 0 = t := by simp [blockTop]
      rw [hq, Nat.sub_self, this]
      omega
  refine ⟨q, h2, h3, htop, h5, ?_⟩
  conv => lhs; unfold splitLoop
  rw [if_pos ht, h1]
  simp only
  rw [maskFromLength_ok q h3]
  simp only
  rw [or_not32_prefixMask t q h3]

theorem splitLoop_chain (e : Nat) (he : e < 4294967295) : ∀ fuel t w L bs,
    (∀ r, r ≤ L → e < blockTop t (32 - r)) → splitLoop e fuel t t w = .ok bs →
    (∀ b ∈ bs, L < b.2 ∧ b.2 ≤ 32 ∧ blockTop b.1 (32 - b.2) ≤ e) ∧
      List.Chain' Linked bs ∧ (∀ b ∈ bs.head?, b.1 = t) := by
  intro fuel
  induction fuel with
  | zero =>
    intro t w L bs _ h
    simp [splitLoop] at h
  | succ fuel ih =>
    intro t w L bs hinv h
    by_cases ht : t < e
    · obtain ⟨q, hq1, hq32, htop, hmin, heq⟩ := splitLoop_step e fuel t t w ht
      rw [heq] at h
      split at h
      · split at h
        · cases h
        · rename_i rest hrec
          injection h with h
          subst h
          have hmod : (blockTop t (32 - q) + 1) % 4294967296 = blockTop t (32 - q) + 1 :=
            Nat.mod_eq_of_lt (by omega)
          rw [hmod] at hrec
          have hLq : L < q := by
            by_contra hc
            have := hinv q (by omega)
            omega
          have hnext : e < blockTop t (32 - q + 1) := by
            rcases Nat.eq_or_lt_of_le hq1 with h1 | h1
            · have := hinv 0 (Nat.zero_le L)
              rw [← h1]
              exact this
            · have := hmin (q - 1) (by omega) (by omega)
              have e1 : 32 - (q - 1) = 32 - q + 1 := by omega
              rw [e1] at this
              exact this
          have hrest := ih _ _ q rest
            (fun r hr => next_top htop hnext (32 - r) (by omega)) hrec
          refine ⟨fun b hb => ?_, ?_, ?_⟩
          · rcases List.mem_cons.1 hb with hb | hb
            · rw [hb]; exact ⟨hLq, hq32, htop⟩
            · have := hrest.1 b hb
              exact ⟨by omega, this.2.1, this.2.2⟩
          · rw [List.chain'_cons']
            refine ⟨fun y hy => ?_, hrest.2.1⟩
            have hy1 := hrest.2.2 y hy
            have hy2 := hrest.1 y (List.mem_of_mem_head? hy)
            exact ⟨hy2.1, hy1⟩
          · intro b hb
            simp only [List.head?_cons, Option.mem_def, Option.some.injEq] at hb
            rw [← hb]
      · cases h
    · unfold splitLoop at h
      rw [if_neg ht] at h
      split at h
      · injection h with h
        subst h
        exact ⟨fun b hb => absurd hb (List.not_mem_nil b), List.chain'_nil,
          fun b hb => by simp at hb⟩
      · cases h

/-- When the range ends at 255.255.255.255 the cursor wraps to a value below
the end after every block, so the loop only stops on its assertion. -/
theorem splitLoop_wraps : ∀ fuel t b w bs, t < 4294967295 →
    splitLoop 4294967295 fuel t b w ≠ .ok bs := by
  intro fuel
  induction fuel with
  | zero =>
    intro t b w bs _ h
    simp [splitLoop] at h
  | succ fuel ih =>
    intro t b w bs ht h
    obtain ⟨q, hq1, hq32, htop, hmin, heq⟩ := splitLoop_step 4294967295 fuel t b w ht
    rw [heq] at h
    have hq : q = 1 := by
      by_contra hne
      have := hmin 1 (Nat.le_refl 1) (by omega)
      simp only [blockTop] at this
      omega
    subst hq
    have hlt : (blockTop t (32 - 1) + 1) % 4294967296 < 4294967295 := by
      simp only [blockTop]
      omega
    split at h
    · split at h
      · cases h
      · rename_i rest hrec
        exact ih _ _ _ rest hlt hrec
    · cases h

theorem splitLoop_ne_fuel (e : Nat) : ∀ fuel t b w, w < 993 → 993 ≤ w + fuel →
    splitLoop e fuel t b w ≠ .error .fuel := by
  intro fuel
  induction fuel with
  | zero => intro t b w h1 h2; omega
  | succ fuel ih =>
    intro t b w h1 h2 h
    by_cases ht : t < e
    · obtain ⟨q, _, _, _, _, heq⟩ := splitLoop_step e fuel t b w ht
      rw [heq] at h
      have hpos := formatNetwork_length_pos b q
      split at h
      · rename_i hw
        split at h
        · rename_i err hrec
          injection h with h
          subst h
          exact ih _ _ _ (by omega) (by omega) hrec
        · cases h
      · cases h
    · unfold splitLoop at h
      rw [if_neg ht] at h
      split at h <;> cases h

/-! ## Facts about block membership -/

theorem and_prefixMask (x p : Nat) (hx : x < 4294967296) (hp : p ≤ 32) :
    x &&& prefixMask p = 2 ^ (32 - p) * (x / 2 ^ (32 - p)) := by
  apply Nat.eq_of_testBit_eq
  intro i
  rw [Nat.testBit_and, Nat.testBit_mul_pow_two, ← Nat.shiftRight_eq_div_pow,
    Nat.testBit_shiftRight]
  by_cases hi : i < 32
  · rw [prefixMask_testBit p hp i hi]
    by_cases hk : 32 - p ≤ i
    · have : 32 - p + (i - (32 - p)) = i := by omega
      simp [hk, this]
    · simp [hk]
  · have h32 : (4294967296 : Nat) ≤ 2 ^ i :=
      (by decide : (4294967296 : Nat) = 2 ^ 32) ▸ Nat.pow_le_pow_right (by decide) (by omega)
    have hk : 32 - p ≤ i := by omega
    have : 32 - p + (i - (32 - p)) = i := by omega
    rw [Nat.testBit_lt_two_pow (Nat.lt_of_lt_of_le hx h32), this,
      Nat.testBit_lt_two_pow (Nat.lt_of_lt_of_le hx h32)]
    simp

theorem and_prefixMask_eq_iff (x y p : Nat) (hx : x < 4294967296) (hy : y < 4294967296)
    (hp : p ≤ 32) :
    x &&& prefixMask p = y &&& prefixMask p ↔ x / 2 ^ (32 - p) = y / 2 ^ (32 - p) := by
  have hpos : 0 < 2 ^ (32 - p) := Nat.pow_pos (by decide)
  rw [and_prefixMask x p hx hp, and_prefixMask y p hy hp]
  constructor
  · intro h; exact Nat.eq_of_mul_eq_mul_left hpos h
  · intro h; rw [h]

theorem div_pow_eq_of_le {x y k j : Nat} (hkj : k ≤ j) (h : x / 2 ^ k = y / 2 ^ k) :
    x / 2 ^ j = y / 2 ^ j := by
  have e : 2 ^ j = 2 ^ k * 2 ^ (j - k) := by
    rw [← Nat.pow_add]
    congr 1
    omega
  rw [e, ← Nat.div_div_eq_div_mul, ← Nat.div_div_eq_div_mul, h]

/-- Two linked blocks are not the address set of one block. -/
theorem linked_not_mergeable (b1 b2 : Block) (hl : Linked b1 b2) (h2 : b2.2 ≤ 32)
    (hb1 : b1.1 < 4294967296) (hb2 : b2.1 < 4294967296) (b : Block) (hp : b.2 ≤ 32) :
    ¬ ∀ a, a < 4294967296 → (covers b a ↔ covers b1 a ∨ covers b2 a) := by
  intro hall
  obtain ⟨x1, q1⟩ := b1
  obtain ⟨x2, q2⟩ := b2
  obtain ⟨x, p⟩ := b
  simp only [Linked, covers] at hl hall h2 hb1 hb2 hp
  obtain ⟨hq, hx2⟩ := hl
  have hq1 : q1 ≤ 32 := by omega
  have hX1 : 0 < 2 ^ (32 - q1) := Nat.pow_pos (by decide)
  have hX2 : 0 < 2 ^ (32 - q2) := Nat.pow_pos (by decide)
  have hx2' : x2 = 2 ^ (32 - q1) * (x1 / 2 ^ (32 - q1) + 1) := by
    rw [hx2, blockTop, Nat.mul_add, Nat.mul_one]
    omega
  have hd2 : x2 / 2 ^ (32 - q1) = x1 / 2 ^ (32 - q1) + 1 := by
    rw [hx2', Nat.mul_div_cancel_left _ hX1]
  -- both starts lie in the merged block
  have c1 := (hall x1 hb1).2 (Or.inl rfl)
  have c2 := (hall x2 hb2).2 (Or.inr rfl)
  have c12 : x1 / 2 ^ (32 - p) = x2 / 2 ^ (32 - p) :=
    (and_prefixMask_eq_iff x1 x2 p hb1 hb2 hp).1 (c1.trans c2.symm)
  have hk : 32 - q1 < 32 - p := by
    by_contra hc
    have := div_pow_eq_of_le (Nat.le_of_not_lt hc) c12
    omega
  -- the address one small block past the second start
  have hlt : 2 ^ (32 - q2) < 2 ^ (32 - q1) := Nat.pow_lt_pow_right (by decide) (by omega)
  have ha1 : (x2 + 2 ^ (32 - q2)) / 2 ^ (32 - q1) = x2 / 2 ^ (32 - q1) := by
    rw [hd2]
    conv => lhs; rw [hx2']
    rw [Nat.mul_add_div hX1, Nat.div_eq_of_lt hlt]
  have ha32 : x2 + 2 ^ (32 - q2) < 4294967296 := by
    have h0 := div_pow_eq_of_le (show 32 - q1 ≤ 32 by omega) ha1
    have h1 : x2 / 2 ^ 32 = 0 := Nat.div_eq_of_lt hb2
    rw [h1] at h0
    have := (Nat.div_eq_zero_iff (show 0 < 2 ^ 32 by decide)).1 h0
    exact this
  have hap : (x2 + 2 ^ (32 - q2)) / 2 ^ (32 - p) = x2 / 2 ^ (32 - p) :=
    div_pow_eq_of_le (Nat.le_of_lt hk) ha1
  have ca : (x2 + 2 ^ (32 - q2)) &&& prefixMask p = x &&& prefixMask p :=
    ((and_prefixMask_eq_iff _ x2 p ha32 hb2 hp).2 hap).trans c2
  rcases (hall _ ha32).1 ca with h | h
  · have := (and_prefixMask_eq_iff _ x1 q1 ha32 hb1 hq1).1 h
    omega
  · have := (and_prefixMask_eq_iff _ x2 q2 ha32 hb2 h2).1 h
    rw [Nat.add_div_right _ hX2] at this
    omega

theorem parseAddress_ne_fuel (s : List Char) : parseAddress s ≠ .error .fuel := by
  intro h
  unfold parseAddress at h
  split at h
  · cases h
  · split at h
    · cases h
    · split at h <;> cases h

/-- The iteration bound of the model is never what stops `rangeToNetworks`. -/
theorem rangeToNetworks_ne_fuel (begin_ end_ : List Char) (st : Stats) :
    rangeToNetworks begin_ end_ st ≠ .error .fuel := by
  intro h
  unfold rangeToNetworks at h
  split at h
  · rename_i e hb
    injection h with h
    subst h
    exact parseAddress_ne_fuel _ hb
  · split at h
    · rename_i e he
      injection h with h
      subst h
      exact parseAddress_ne_fuel _ he
    · simp only at h
      split at h
      · split at h
        · rename_i e hs
          injection h with h
          subst h
          exact splitLoop_ne_fuel _ 993 _ _ 0 (by decide) (by decide) hs
        · cases h
      · split at h <;> cases h

/-! ## The splitting loop returns -/

theorem toDigits_length_octet : ∀ n, n < 256 → (Nat.toDigits 10 n).length ≤ 3 := by
  intro n hn
  by_cases h1 : n < 10
  · rw [toDigits_small n h1]; simp
  · rw [toDigits_step n (by omega)]
    by_cases h2 : n / 10 < 10
    · rw [toDigits_small _ h2]; simp
    · rw [toDigits_step _ (by omega), toDigits_small _ (by omega)]; simp

theorem formatNetwork_length_le (addr q : Nat) (ha : addr < 4294967296) (hq : q ≤ 32) :
    (formatNetwork addr (q : Int)).length ≤ 19 := by
  have m : ∀ x : Nat, x &&& 255 = x % 256 := fun x => Nat.and_pow_two_sub_one_eq_mod x 8
  unfold formatNetwork formatAddress
  simp only [printInt_natCast, Nat.shiftRight_eq_div_pow, m, List.length_append,
    List.length_cons, List.length_nil]
  have d0 := toDigits_length_octet (addr / 2 ^ 24) (by omega)
  have d1 := toDigits_length_octet (addr / 2 ^ 16 % 256) (by omega)
  have d2 := toDigits_length_octet (addr / 2 ^ 8 % 256) (by omega)
  have d3 := toDigits_length_octet (addr % 256) (by omega)
  have dq := toDigits_length_octet q (by omega)
  have dq2 : (Nat.toDigits 10 q).length ≤ 2 := by
    by_cases h1 : q < 10
    · rw [toDigits_small q h1]; simp
    · rw [toDigits_step q (by omega), toDigits_small _ (by omega)]; simp
  omega

/-- Below 255.255.255.255 the loop returns: the prefix lengths grow with
every block, so at most 32 blocks of at most 19 characters are written and the
assertion on `writtenChars` holds each time. -/
theorem splitLoop_returns (e : Nat) (he : e < 4294967295) : ∀ fuel t w L,
    (∀ r, r ≤ L → e < blockTop t (32 - r)) → L ≤ 32 → w + 19 * (32 - L) < 993 →
    32 - L < fuel → ∃ bs, splitLoop e fuel t t w = .ok bs ∧ bs.length ≤ 32 - L := by
  intro fuel
  induction fuel with
  | zero => intro t w L _ _ _ h; omega
  | succ fuel ih =>
    intro t w L hinv hL hw hfuel
    by_cases ht : t < e
    · obtain ⟨q, hq1, hq32, htop, hmin, heq⟩ := splitLoop_step e fuel t t w ht
      have hLq : L < q := by
        by_contra hc
        have := hinv q (by omega)
        omega
      have hnext : e < blockTop t (32 - q + 1) := by
        rcases Nat.eq_or_lt_of_le hq1 with h1 | h1
        · have := hinv 0 (Nat.zero_le L)
          rw [← h1]
          exact this
        · have := hmin (q - 1) (by omega) (by omega)
          have e1 : 32 - (q - 1) = 32 - q + 1 := by omega
          rw [e1] at this
          exact this
      have hlen := formatNetwork_length_le t q (by omega) hq32
      have hmod : (blockTop t (32 - q) + 1) % 4294967296 = blockTop t (32 - q) + 1 :=
        Nat.mod_eq_of_lt (by omega)
      obtain ⟨rest, hrest, hcount⟩ := ih (blockTop t (32 - q) + 1)
        (w + (formatNetwork t q).length) q
        (fun r hr => next_top htop hnext (32 - r) (by omega)) hq32 (by omega) (by omega)
      rw [heq, if_pos (by omega), hmod, hrest]
      exact ⟨(t, q) :: rest, rfl, by simp only [List.length_cons]; omega⟩
    · refine ⟨[], ?_, Nat.zero_le _⟩
      unfold splitLoop
      rw [if_neg ht, if_pos (by omega)]

/-- Totality: `rangeToNetworks` returns, with at most 32 blocks, whenever both texts
have three dots, `begin` is at most 15 bytes and the end is not
255.255.255.255. -/
theorem rangeToNetworks_returns (begin_ end_ : List Char) (st : Stats) (beginAddr endAddr : Nat)
    (hb : parseAddress begin_ = .ok beginAddr) (he : parseAddress end_ = .ok endAddr)
    (hlen : begin_.length ≤ 15) (hend : endAddr ≠ 4294967295) :
    ∃ nets st', rangeToNetworks begin_ end_ st = .ok (nets, st') ∧ nets.blocks.length ≤ 32 := by
  have hb32 := parseAddress_lt hb
  have he32 := parseAddress_lt he
  unfold rangeToNetworks
  rw [hb, he]
  simp only
  by_cases hm : maskLength (not32 (sub32 endAddr beginAddr)) = -1
  · rw [if_pos hm]
    obtain ⟨bs, hbs, hcount⟩ := splitLoop_returns endAddr (by omega) 993 beginAddr 0 0
      (fun r hr => by
        have : r = 0 := by omega
        subst this
        simp only [blockTop]
        have := Nat.div_eq_of_lt hb32
        omega) (by decide) (by decide) (by decide)
    rw [hbs]
    exact ⟨_, _, rfl, hcount⟩
  · rw [if_neg hm]
    rcases maskLengthLoop_scan (not32 (sub32 endAddr beginAddr)) 32 0 with
      ⟨p, hp, h1, _⟩ | ⟨h1, _⟩
    · have hml : maskLength (not32 (sub32 endAddr beginAddr)) = (p : Int) := by
        rw [maskLength, h1]; simp
      have dq2 : (Nat.toDigits 10 p).length ≤ 2 := by
        by_cases h1 : p < 10
        · rw [toDigits_small p h1]; simp
        · rw [toDigits_step p (by omega), toDigits_small _ (by omega)]; simp
      rw [hml, printInt_natCast, if_pos (by simp; omega)]
      exact ⟨_, _, rfl, by simp⟩
    · exact absurd h1 hm

/-! ## Claims -/

/-- C1: for a prefix length `p` in 0..31 and a start address aligned to `p`,
`rangeToNetworks` on texts that parse to `start` and to
`start | ~maskFromLength(p)` returns exactly one line, the text of `begin`
followed by `/p` and a newline, for the single block `(start, p)`, and counts
one CIDR network. The text of `begin` is at most 15 bytes, as `outputRange`
asserts before the call. -/
theorem rangeToNetworks_exact_cidr (p : Nat) (hp : p ≤ 31) (begin_ end_ : List Char)
    (start m : Nat) (st : Stats) (hm : maskFromLength (p : Int) = .ok m)
    (hb : parseAddress begin_ = .ok start) (he : parseAddress end_ = .ok (start ||| not32 m))
    (hal : start &&& not32 m = 0) (hlen : begin_.length ≤ 15) :
    rangeToNetworks begin_ end_ st =
      .ok (⟨begin_ ++ '/' :: Nat.toDigits 10 p ++ ['\n'], [(start, p)]⟩,
        { st with networkAddressCount := st.networkAddressCount + 1 }) := by
  have hp32 : p ≤ 32 := by omega
  rw [maskFromLength_ok p hp32] at hm
  injection hm with hm
  subst hm
  rw [not32_prefixMask p hp32] at he hal
  have hs := parseAddress_lt hb
  have hpos : 0 < 2 ^ (32 - p) := Nat.pow_pos (by decide)
  have hk : 2 ^ (32 - p) ≤ 4294967296 :=
    (by decide : (4294967296 : Nat) = 2 ^ 32) ▸ Nat.pow_le_pow_right (by decide) (by omega)
  have hmod : start % 2 ^ (32 - p) = 0 := by rw [← and_low_mask]; exact hal
  have hdiv := Nat.div_add_mod start (2 ^ (32 - p))
  have htop : start ||| (2 ^ (32 - p) - 1) = start + (2 ^ (32 - p) - 1) := by
    rw [or_low_mask]; omega
  rw [htop] at he
  have hmask : not32 (sub32 (start + (2 ^ (32 - p) - 1)) start) = prefixMask p := by
    unfold not32 sub32 prefixMask
    have : (start + (2 ^ (32 - p) - 1) + 4294967296 - start) % 4294967296 = 2 ^ (32 - p) - 1 := by
      omega
    rw [this]
    omega
  have hdig : (Nat.toDigits 10 p).length ≤ 2 := by
    interval_cases p <;> decide
  unfold rangeToNetworks
  rw [hb, he]
  simp only [hmask, maskLength_prefixMask p hp32, printInt_natCast, Int.toNat_ofNat]
  rw [if_neg (by omega), if_pos (by simp; omega)]

theorem rangeToNetworks_exact_cidr_witness :
    rangeToNetworks "10.0.0.0".toList "10.0.0.3".toList Stats.zero =
      .ok (⟨"10.0.0.0".toList ++ '/' :: Nat.toDigits 10 30 ++ ['\n'], [(167772160, 30)]⟩,
        { Stats.zero with networkAddressCount := Stats.zero.networkAddressCount + 1 }) :=
  rangeToNetworks_exact_cidr 30 (by decide) "10.0.0.0".toList "10.0.0.3".toList 167772160
    4294967292 Stats.zero (by decide) (by decide) (by decide) (by decide) (by decide)

/-- C2 fails on the code, on both paths: for 10.0.0.1-10.0.0.2 (start <= end)
the single-block path writes `10.0.0.1/31`, and for 192.168.1.1-192.168.1.5
the splitting path writes `192.168.1.1/30` first; in both the base address has
bits set below the mask. -/
theorem emitted_block_unaligned :
    rangeToNetworks "10.0.0.1".toList "10.0.0.2".toList Stats.zero =
      .ok (⟨"10.0.0.1/31\n".toList, [(167772161, 31)]⟩, ⟨0, 0, 1, 0⟩) ∧
    maskFromLength 31 = .ok 4294967294 ∧ 167772161 &&& not32 4294967294 ≠ 0 ∧
    ¬ aligned (167772161, 31) ∧
    rangeToNetworks "192.168.1.1".toList "192.168.1.5".toList Stats.zero =
      .ok (⟨"192.168.1.1/30\n192.168.1.4/31\n".toList, [(3232235777, 30), (3232235780, 31)]⟩,
        ⟨0, 0, 0, 1⟩) ∧
    maskFromLength 30 = .ok 4294967292 ∧ 3232235777 &&& not32 4294967292 ≠ 0 ∧
    ¬ aligned (3232235777, 30) := by decide

/-- C3 fails on the code: 10.0.0.0-10.0.0.4 is not a CIDR block and takes the
splitting path, which writes the single line `10.0.0.0/30` and stops because
the cursor 10.0.0.4 is not below the end; the address 10.0.0.4 of the range is
in no emitted block. -/
theorem range_end_not_covered :
    parseAddress "10.0.0.0".toList = .ok 167772160 ∧
    parseAddress "10.0.0.4".toList = .ok 167772164 ∧
    maskLength (not32 (sub32 167772164 167772160)) = -1 ∧
    rangeToNetworks "10.0.0.0".toList "10.0.0.4".toList Stats.zero =
      .ok (⟨"10.0.0.0/30\n".toList, [(167772160, 30)]⟩, ⟨0, 0, 0, 1⟩) ∧
    maskFromLength 30 = .ok 4294967292 ∧
    167772164 &&& 4294967292 ≠ 167772160 &&& 4294967292 ∧
    (∀ b ∈ [((167772160, 30) : Block)], ¬ covers b 167772164) := by decide

/-- C4 fails on the code: for 192.168.1.1-192.168.1.5 the splitting loop
writes `192.168.1.1/30` and `192.168.1.4/31`, while the reference greedy
decomposition is `192.168.1.1/32`, `192.168.1.2/31`, `192.168.1.4/31`. -/
theorem splitting_differs_from_greedy :
    rangeToNetworks "192.168.1.1".toList "192.168.1.5".toList Stats.zero =
      .ok (⟨"192.168.1.1/30\n192.168.1.4/31\n".toList, [(3232235777, 30), (3232235780, 31)]⟩,
        ⟨0, 0, 0, 1⟩) ∧
    greedyReference 3232235781 64 3232235777 =
      [(3232235777, 32), (3232235778, 31), (3232235780, 31)] ∧
    renderBlocks (greedyReference 3232235781 64 3232235777) =
      "192.168.1.1/32\n192.168.1.2/31\n192.168.1.4/31\n".toList ∧
    greedyReference 3232235781 64 3232235777 ≠ [(3232235777, 30), (3232235780, 31)] := by
  decide

/-- C5: whatever the two texts, when `rangeToNetworks` returns, no two blocks
adjacent in its output can be replaced by one block `(b, p)` with `p <= 32`
(aligned or not) that holds exactly the addresses of the two. -/
theorem adjacent_blocks_not_mergeable (begin_ end_ : List Char) (st st' : Stats)
    (nets : Networks) (h : rangeToNetworks begin_ end_ st = .ok (nets, st'))
    (l1 l2 : List Block) (b1 b2 : Block) (hadj : nets.blocks = l1 ++ b1 :: b2 :: l2)
    (b : Block) (hp : b.2 ≤ 32) :
    ¬ ∀ a, a < 4294967296 → (covers b a ↔ covers b1 a ∨ covers b2 a) := by
  unfold rangeToNetworks at h
  split at h
  · cases h
  · rename_i beginAddr hb
    split at h
    · cases h
    · rename_i endAddr he
      have hb32 := parseAddress_lt hb
      have he32 := parseAddress_lt he
      simp only at h
      split at h
      · split at h
        · cases h
        · rename_i blocks hs
          injection h with h
          injection h with h _
          subst h
          simp only at hadj
          by_cases hmax : endAddr < 4294967295
          · have hc := splitLoop_chain endAddr hmax 993 beginAddr 0 0 blocks
              (fun r hr => by
                have : r = 0 := by omega
                subst this
                simp only [blockTop]
                have := Nat.div_eq_of_lt hb32
                omega) hs
            rw [hadj] at hc
            have hchain := (List.chain'_cons.1 hc.2.1.right_of_append).1
            have m1 := hc.1 b1 (by simp)
            have m2 := hc.1 b2 (by simp)
            have t1 := le_blockTop b1.1 (32 - b1.2)
            have t2 := le_blockTop b2.1 (32 - b2.2)
            exact linked_not_mergeable b1 b2 hchain m2.2.1 (by omega) (by omega) b hp
          · have hend : endAddr = 4294967295 := by omega
            subst hend
            by_cases hlt : beginAddr < 4294967295
            · exact absurd hs (splitLoop_wraps 993 beginAddr beginAddr 0 blocks hlt)
            · unfold splitLoop at hs
              rw [if_neg hlt] at hs
              split at hs
              · injection hs with hs
                rw [← hs] at hadj
                simp at hadj
              · cases hs
      · split at h
        · injection h with h
          injection h with h _
          subst h
          simp only at hadj
          have := congrArg List.length hadj
          simp at this
          omega
        · cases h

theorem adjacent_blocks_not_mergeable_witness :
    ¬ ∀ a, a < 4294967296 →
      (covers (3232235776, 29) a ↔ covers (3232235777, 30) a ∨ covers (3232235780, 31) a) :=
  adjacent_blocks_not_mergeable "192.168.1.1".toList "192.168.1.5".toList Stats.zero ⟨0, 0, 0, 1⟩
    ⟨"192.168.1.1/30\n192.168.1.4/31\n".toList, [(3232235777, 30), (3232235780, 31)]⟩
    (by decide) [] [] (3232235777, 30) (3232235780, 31) rfl (3232235776, 29) (by decide)


/-- C6: for a 32-bit mask `m`, `maskLength m` is `p` exactly when the top `p`
bits of `m` are ones and the rest zeros, it is `-1` exactly when a zero bit
stands above a one bit, no other result occurs, and
`maskLength (maskFromLength p) = p` for every `p` in 0..32. -/
theorem maskLength_spec (m : Nat) (hm : m < 4294967296) :
    (∀ p : Nat, p ≤ 32 → (maskLength m = (p : Int) ↔ IsPrefixBits m 32 p)) ∧
    (maskLength m = -1 ↔ HasGap m 32) ∧
    (maskLength m = -1 ∨ ∃ p : Nat, p ≤ 32 ∧ maskLength m = (p : Int)) ∧
    (∀ p : Nat, p ≤ 32 → (IsPrefixBits m 32 p ↔ m = 4294967296 - 2 ^ (32 - p))) ∧
    (∀ p : Nat, p ≤ 32 →
      ∃ mask, maskFromLength (p : Int) = .ok mask ∧ maskLength mask = (p : Int)) := by
  have scan := maskLengthLoop_scan m 32 0
  simp only [zero_add] at scan
  refine ⟨fun p hp => ⟨fun h => ?_, fun h => ?_⟩, ⟨fun h => ?_, fun h => ?_⟩, ?_,
    fun p hp => isPrefixBits_iff_eq m p hm hp, fun p hp => ?_⟩
  · rcases scan with ⟨q, _, h1, h2⟩ | ⟨h1, _⟩
    · have : (q : Int) = p := by rw [← h1]; exact h
      have : q = p := by omega
      exact this ▸ h2
    · have : maskLength m = -1 := h1
      omega
  · rcases scan with ⟨q, hq, h1, h2⟩ | ⟨_, h2⟩
    · rw [IsPrefixBits.unique hp hq h h2]; exact h1
    · exact absurd h2 h.not_gap
  · rcases scan with ⟨q, _, h1, _⟩ | ⟨_, h2⟩
    · have : maskLength m = q := h1
      omega
    · exact h2
  · rcases scan with ⟨q, _, _, h2⟩ | ⟨h1, _⟩
    · exact absurd h h2.not_gap
    · exact h1
  · rcases scan with ⟨q, hq, h1, _⟩ | ⟨h1, _⟩
    · exact Or.inr ⟨q, hq, h1⟩
    · exact Or.inl h1
  · exact ⟨prefixMask p, maskFromLength_ok p hp, maskLength_prefixMask p hp⟩

theorem maskLength_spec_witness :
    (maskLength 4294967040 = ((24 : Nat) : Int) ↔ IsPrefixBits 4294967040 32 24) ∧
    (maskLength 4294967040 = -1 ↔ HasGap 4294967040 32) :=
  ⟨(maskLength_spec 4294967040 (by decide)).1 24 (by decide),
    (maskLength_spec 4294967040 (by decide)).2.1⟩

/-- C7: for `0 <= length <= 32`, `maskFromLength` returns `2^32 - 2^(32-length)`,
the 32-bit value whose top `length` bits are set and whose other bits are
clear (`0` for length 0, `0xFFFFFFFF` for length 32); for any other length its
assertion fails. -/
theorem maskFromLength_spec (length : Int) :
    (0 ≤ length → length ≤ 32 →
      maskFromLength length = .ok (4294967296 - 2 ^ (32 - length.toNat)) ∧
      ∀ i, i < 32 →
        (4294967296 - 2 ^ (32 - length.toNat)).testBit i = decide (32 - length.toNat ≤ i)) ∧
    (length < 0 ∨ 32 < length → maskFromLength length = .error .assertion) ∧
    maskFromLength 0 = .ok 0 ∧ maskFromLength 32 = .ok 4294967295 := by
  refine ⟨fun h0 h32 => ?_, fun h => ?_, rfl, rfl⟩
  · have hp : length.toNat ≤ 32 := by omega
    have hc : ((length.toNat : Nat) : Int) = length := Int.toNat_of_nonneg h0
    refine ⟨?_, fun i hi => prefixMask_testBit _ hp i hi⟩
    have := maskFromLength_ok length.toNat hp
    rw [hc] at this
    exact this
  · unfold maskFromLength
    rw [if_neg (by omega)]

theorem maskFromLength_spec_witness :
    (maskFromLength 24 = .ok (4294967296 - 2 ^ (32 - (24 : Int).toNat)) ∧
      ∀ i, i < 32 →
        (4294967296 - 2 ^ (32 - (24 : Int).toNat)).testBit i =
          decide (32 - (24 : Int).toNat ≤ i)) ∧
    maskFromLength 33 = .error .assertion ∧ maskFromLength (-1) = .error .assertion :=
  ⟨(maskFromLength_spec 24).1 (by decide) (by decide),
    (maskFromLength_spec 33).2.1 (Or.inr (by decide)),
    (maskFromLength_spec (-1)).2.1 (Or.inl (by decide))⟩

/-- C8, as stated, fails: the last field of `0.0.0.9223372036854775808` is
`2 ^ 63`, which `atoi` clamps to the largest `long` and reads as `-1`; the
parsed address is `0xFFFFFFFF`, while the value shifted, or-ed and truncated
to 32 bits is `0`. -/
theorem parseAddress_clamps_large_field :
    dotted (decimalField 0 0) (decimalField 0 0) (decimalField 0 0)
        (decimalField 0 9223372036854775808) = "0.0.0.9223372036854775808".toList ∧
    atoi "9223372036854775808".toList = -1 ∧
    parseAddress "0.0.0.9223372036854775808".toList = .ok 4294967295 ∧
    ((0 <<< 24) ||| (0 <<< 16) ||| (0 <<< 8) ||| 9223372036854775808) % 4294967296 = 0 := by
  decide

/-- C8, amended: the tokenizer of `rangeToNetworks`, on four decimal numbers
below `2 ^ 63` (with any number of leading zeros) separated by dots, yields
`(c0<<24)|(c1<<16)|(c2<<8)|c3` truncated to 32 bits; when every octet is in
0..255 nothing is truncated. -/
theorem parseAddress_packs (c0 c1 c2 c3 z0 z1 z2 z3 : Nat)
    (h0 : c0 < 9223372036854775808) (h1 : c1 < 9223372036854775808)
    (h2 : c2 < 9223372036854775808) (h3 : c3 < 9223372036854775808) :
    parseAddress (dotted (decimalField z0 c0) (decimalField z1 c1) (decimalField z2 c2)
        (decimalField z3 c3)) =
      .ok (((c0 <<< 24) ||| (c1 <<< 16) ||| (c2 <<< 8) ||| c3) % 4294967296) ∧
    (c0 ≤ 255 → c1 ≤ 255 → c2 ≤ 255 → c3 ≤ 255 →
      parseAddress (dotted (decimalField z0 c0) (decimalField z1 c1) (decimalField z2 c2)
          (decimalField z3 c3)) =
        .ok ((c0 <<< 24) ||| (c1 <<< 16) ||| (c2 <<< 8) ||| c3)) := by
  refine ⟨parseAddress_dotted c0 c1 c2 c3 z0 z1 z2 z3 h0 h1 h2 h3, fun k0 k1 k2 k3 => ?_⟩
  rw [parseAddress_dotted c0 c1 c2 c3 z0 z1 z2 z3 h0 h1 h2 h3, packed_eq c0 c1 c2 c3 k1 k2 k3,
    Nat.mod_eq_of_lt (by omega)]

theorem parseAddress_packs_witness :
    parseAddress (dotted (decimalField 0 192) (decimalField 0 168) (decimalField 0 1)
        (decimalField 0 5)) =
      .ok (((192 <<< 24) ||| (168 <<< 16) ||| (1 <<< 8) ||| 5) % 4294967296) ∧
    parseAddress (dotted (decimalField 1 300) (decimalField 0 168) (decimalField 0 1)
        (decimalField 0 5)) =
      .ok (((300 <<< 24) ||| (168 <<< 16) ||| (1 <<< 8) ||| 5) % 4294967296) :=
  ⟨(parseAddress_packs 192 168 1 5 0 0 0 0 (by decide) (by decide) (by decide) (by decide)).1,
    (parseAddress_packs 300 168 1 5 1 0 0 0 (by decide) (by decide) (by decide) (by decide)).1⟩

/-- C9, as stated, fails: `010.0.0.1` is four decimal octets in 0..255
separated by three dots, it parses to 10.0.0.1, and the address is written
back as `10.0.0.1`, not as the input text. -/
theorem format_parse_leading_zero :
    wellFormedDotted "010.0.0.1".toList = true ∧
    parseAddress "010.0.0.1".toList = .ok 167772161 ∧
    formatAddress 167772161 = "10.0.0.1".toList ∧
    formatNetwork 167772161 32 = "10.0.0.1/32\n".toList ∧
    formatAddress 167772161 ≠ "010.0.0.1".toList := by decide

/-- C9, amended: for four octets in 0..255 written in decimal without leading
zeros and separated by three dots, the text parses, the address part written
by `formatNetwork` for the parsed value is that text character for character,
and the text is well formed. -/
theorem format_parse_roundtrip (c0 c1 c2 c3 : Nat) (h0 : c0 ≤ 255) (h1 : c1 ≤ 255)
    (h2 : c2 ≤ 255) (h3 : c3 ≤ 255) (maskLen : Int) :
    ∃ addr, parseAddress (canonicalQuad c0 c1 c2 c3) = .ok addr ∧
      formatAddress addr = canonicalQuad c0 c1 c2 c3 ∧
      formatNetwork addr maskLen = canonicalQuad c0 c1 c2 c3 ++ '/' :: printInt maskLen ++ ['\n'] := by
  have hp := parseAddress_dotted c0 c1 c2 c3 0 0 0 0 (by omega) (by omega) (by omega) (by omega)
  rw [packed_eq c0 c1 c2 c3 h1 h2 h3, Nat.mod_eq_of_lt (by omega)] at hp
  have hf := formatAddress_packed c0 c1 c2 c3 h1 h2 h3
  refine ⟨_, hp, hf, ?_⟩
  unfold formatNetwork
  rw [hf]
  rfl

theorem format_parse_roundtrip_witness :
    ∃ addr, parseAddress (canonicalQuad 192 168 1 5) = .ok addr ∧
      formatAddress addr = canonicalQuad 192 168 1 5 ∧
      formatNetwork addr 31 = canonicalQuad 192 168 1 5 ++ '/' :: printInt 31 ++ ['\n'] :=
  format_parse_roundtrip 192 168 1 5 (by decide) (by decide) (by decide) (by decide) 31

/-- C10: for a token `A-A` where `A` has at most 15 bytes and no `-`,
`outputRange` writes exactly `A` and a newline and counts one single address;
the two counters of `rangeToNetworks`, one of which every returning call of it
increments, are left as they were. -/
theorem outputRange_identical (a : List Char) (st : Stats) (hlen : a.length ≤ 15)
    (hdash : ∀ c ∈ a, c ≠ '-') :
    outputRange (a ++ '-' :: a) st =
      .ok (a ++ ['\n'], { st with singleAddressCount := st.singleAddressCount + 1 }) ∧
    (∀ b e st0 nets st1, rangeToNetworks b e st0 = .ok (nets, st1) →
      st1.networkAddressCount + st1.complexRangeCount =
        st0.networkAddressCount + st0.complexRangeCount + 1) := by
  constructor
  · unfold outputRange
    rw [strchr_append '-' a a hdash]
    simp only
    rw [if_pos hlen, if_pos trivial]
  · intro b e st0 nets st1 h
    unfold rangeToNetworks at h
    split at h
    · cases h
    · split at h
      · cases h
      · simp only at h
        split at h
        · split at h
          · cases h
          · injection h with h
            injection h with _ h
            rw [← h]
            simp only
            omega
        · split at h
          · injection h with h
            injection h with _ h
            rw [← h]
            simp only
            omega
          · cases h

theorem outputRange_identical_witness :
    outputRange ("10.0.0.0".toList ++ '-' :: "10.0.0.0".toList) Stats.zero =
      .ok ("10.0.0.0".toList ++ ['\n'],
        { Stats.zero with singleAddressCount := Stats.zero.singleAddressCount + 1 }) :=
  (outputRange_identical "10.0.0.0".toList Stats.zero (by decide) (by decide)).1

/-! ## Facts about the line scanner -/

theorem convertLoop_append (a b : List Char) : ∀ s : Conv,
    convertLoop s (a ++ b) =
      match convertLoop s a with
      | .error e => .error e
      | .ok s' => convertLoop s' b := by
  induction a with
  | nil => intro s; rfl
  | cons c cs ih =>
    intro s
    simp only [List.cons_append, convertLoop]
    cases convertStep s c with
    | error e => rfl
    | ok s' => exact ih s'

theorem isRangeChar_facts {c : Char} (h : isRangeChar c = true) :
    isTerminator c = false ∧ c ≠ ':' ∧ c ≠ '\x00' := by
  refine ⟨?_, ?_, ?_⟩
  · cases ht : isTerminator c with
    | false => rfl
    | true =>
      simp only [isTerminator, Bool.or_eq_true, decide_eq_true_eq] at ht
      rcases ht with rfl | rfl <;> exact absurd h (by decide)
  · rintro rfl; exact absurd h (by decide)
  · rintro rfl; exact absurd h (by decide)

theorem cstr_of_no_nul (l : List Char) (h : ∀ c ∈ l, c ≠ '\x00') : cstr l = l := by
  unfold cstr
  rw [List.takeWhile_eq_self_iff]
  intro c hc
  simpa using h c hc

/-- A byte that is neither a terminator nor `:` read in the garbage state is
only stored. -/
theorem scanByte_garbage (s : Scan) (c : Char) (hs : s.isReadingGarbage = true)
    (hlen : s.savedLine.length < 1024) (ht : isTerminator c = false) (hc : c ≠ ':') :
    scanByte s c = .ok ({ s with savedLine := s.savedLine ++ [c] }, .none) := by
  unfold scanByte
  rw [if_pos hlen]
  simp only [hs, ht, if_true]
  rw [if_neg (by simp), if_neg hc]

/-- A token byte read in the range state is stored in both buffers. -/
theorem scanByte_range (s : Scan) (c : Char) (hs : s.isReadingGarbage = false)
    (hlen : s.savedLine.length < 1024) (hbuf : s.buf.length < 32) (hc : isRangeChar c = true) :
    scanByte s c =
      .ok ({ s with savedLine := s.savedLine ++ [c], buf := s.buf ++ [c] }, .none) := by
  unfold scanByte
  rw [if_pos hlen]
  simp only [hs, (isRangeChar_facts hc).1, hc]
  rw [if_neg (by simp), if_neg (by simp), if_neg (by simp), if_pos (by omega)]

theorem convertLoop_garbage (g : List Char) : ∀ s : Conv, s.scan.isReadingGarbage = true →
    s.scan.savedLine.length + g.length ≤ 1024 →
    (∀ c ∈ g, isTerminator c = false ∧ c ≠ ':') →
    convertLoop s g =
      .ok { s with scan := { s.scan with savedLine := s.scan.savedLine ++ g } } := by
  induction g with
  | nil => intro s _ _ _; simp [convertLoop]
  | cons c cs ih =>
    intro s hs hlen hg
    have hc := hg c (List.mem_cons_self c cs)
    simp only [List.length_cons] at hlen
    unfold convertLoop convertStep
    rw [scanByte_garbage s.scan c hs (by omega) hc.1 hc.2]
    simp only
    refine (ih { s with scan := { s.scan with savedLine := s.scan.savedLine ++ [c] } } hs ?_
      (fun x hx => hg x (List.mem_cons_of_mem c hx))).trans ?_
    · simp only [List.length_append, List.length_cons, List.length_nil]; omega
    · simp

theorem convertLoop_range (t : List Char) : ∀ s : Conv, s.scan.isReadingGarbage = false →
    s.scan.savedLine.length + t.length ≤ 1024 → s.scan.buf.length + t.length ≤ 32 →
    (∀ c ∈ t, isRangeChar c = true) →
    convertLoop s t =
      .ok { s with scan := { s.scan with savedLine := s.scan.savedLine ++ t,
                                         buf := s.scan.buf ++ t } } := by
  induction t with
  | nil => intro s _ _ _ _; simp [convertLoop]
  | cons c cs ih =>
    intro s hs hlen hbuf ht
    have hc := ht c (List.mem_cons_self c cs)
    simp only [List.length_cons] at hlen hbuf
    unfold convertLoop convertStep
    rw [scanByte_range s.scan c hs (by omega) (by omega) hc]
    simp only
    refine (ih { s with scan := { s.scan with savedLine := s.scan.savedLine ++ [c],
                                              buf := s.scan.buf ++ [c] } } hs ?_ ?_
      (fun x hx => ht x (List.mem_cons_of_mem c hx))).trans ?_
    · simp only [List.length_append, List.length_cons, List.length_nil]; omega
    · simp only [List.length_append, List.length_cons, List.length_nil]; omega
    · simp

/-- The colon that opens a range token. -/
theorem scanByte_colon (s : Scan) (hs : s.isReadingGarbage = true)
    (hlen : s.savedLine.length < 1024) :
    scanByte s ':' =
      .ok ({ savedLine := s.savedLine ++ [':'], buf := [], isReadingGarbage := false }, .none) := by
  unfold scanByte
  rw [if_pos hlen]
  simp [hs, isTerminator]

/-- A terminator read in the garbage state drops the line. -/
theorem scanByte_skip (s : Scan) (c : Char) (hs : s.isReadingGarbage = true)
    (hlen : s.savedLine.length < 1024) (ht : isTerminator c = true) :
    scanByte s c = .ok ({ s with savedLine := [] }, .skipped) := by
  unfold scanByte
  rw [if_pos hlen]
  simp only [hs, ht, if_true]

/-- A terminator read in the range state, on a line that starts with a byte
other than a terminator and with a token that leaves room for its NUL, hands
both buffers downstream. -/
theorem scanByte_record (s : Scan) (c first : Char) (rest : List Char)
    (hs : s.isReadingGarbage = false) (hline : s.savedLine = first :: rest)
    (hfirst : isTerminator first = false)
    (hlen : s.savedLine.length < 1024) (hbuf : s.buf.length < 32) (ht : isTerminator c = true) :
    scanByte s c =
      .ok ({ savedLine := [], buf := s.buf, isReadingGarbage := true },
        .record s.savedLine (cstr s.buf)) := by
  unfold scanByte
  rw [if_pos hlen]
  simp only [hs, ht, if_true]
  have h1 : assertLineBufCount (s.savedLine ++ [c]) = true := by
    simp [assertLineBufCount, hline]
  have h2 : assertFirstByte (s.savedLine ++ [c]) = true := by
    simp [assertFirstByte, hline, hfirst]
  rw [if_neg (by simp), if_pos h1, if_pos hbuf, if_pos h2, List.dropLast_concat]

/-- The output calls on a line whose first byte is not NUL and that holds no
NUL byte: the whole line is written after `# `. -/
theorem emitRecord_eq (line token out : List Char) (st : Stats)
    (hhead : line.head? ≠ some '\x00') (hstr : cstr line = line) :
    emitRecord line token out st =
      match outputRange token st with
      | .error e => .error e
      | .ok (text, st') => .ok (out ++ ('#' :: ' ' :: line ++ '\n' :: text), st') := by
  unfold emitRecord
  simp only
  rw [if_pos hhead, hstr]
  cases outputRange token st with
  | error e => rfl
  | ok r =>
    obtain ⟨text, st'⟩ := r
    simp

/-! ## The line counter does not influence the text -/

theorem rangeToNetworks_lineCount (b e : List Char) (st : Stats) (n : Nat) :
    rangeToNetworks b e { st with lineCount := n } =
      match rangeToNetworks b e st with
      | .error err => .error err
      | .ok (nets, st') => .ok (nets, { st' with lineCount := n }) := by
  unfold rangeToNetworks
  cases parseAddress b with
  | error err => rfl
  | ok beginAddr =>
    cases parseAddress e with
    | error err => rfl
    | ok endAddr =>
      simp only
      split
      · cases splitLoop endAddr 993 beginAddr beginAddr 0 with
        | error err => rfl
        | ok blocks => rfl
      · split
        · rfl
        · rfl

theorem outputRange_lineCount (buf : List Char) (st : Stats) (n : Nat) :
    outputRange buf { st with lineCount := n } =
      match outputRange buf st with
      | .error err => .error err
      | .ok (text, st') => .ok (text, { st' with lineCount := n }) := by
  unfold outputRange
  cases strchr '-' buf with
  | none => rfl
  | some p =>
    obtain ⟨firstHalf, secondHalf⟩ := p
    simp only
    split
    · split
      · rfl
      · rw [rangeToNetworks_lineCount]
        cases rangeToNetworks firstHalf secondHalf st with
        | error err => rfl
        | ok r => rfl
    · rfl

theorem emitRecord_lineCount (line token out : List Char) (st : Stats) (n : Nat) :
    emitRecord line token out { st with lineCount := n } =
      match emitRecord line token out st with
      | .error err => .error err
      | .ok (text, st') => .ok (text, { st' with lineCount := n }) := by
  unfold emitRecord
  simp only
  rw [outputRange_lineCount]
  cases outputRange token st with
  | error err => rfl
  | ok r => rfl

theorem convertStep_lineCount (s : Conv) (n : Nat) (c : Char) :
    (convertStep (s.withLineCount n) c).map (fun x => x.withLineCount 0) =
      (convertStep s c).map (fun x => x.withLineCount 0) := by
  unfold convertStep
  have hscan : (s.withLineCount n).scan = s.scan := rfl
  rw [hscan]
  cases scanByte s.scan c with
  | error err => rfl
  | ok r =>
    obtain ⟨scan, ev⟩ := r
    cases ev with
    | none => rfl
    | skipped => rfl
    | record line token =>
      simp only
      have e1 : ({ (s.withLineCount n).stats with
          lineCount := (s.withLineCount n).stats.lineCount + 1 } : Stats) =
          { s.stats with lineCount := n + 1 } := rfl
      have e2 : (s.withLineCount n).out = s.out := rfl
      rw [e1, e2, emitRecord_lineCount line token s.out s.stats (n + 1),
        emitRecord_lineCount line token s.out s.stats (s.stats.lineCount + 1)]
      cases emitRecord line token s.out s.stats with
      | error err => rfl
      | ok r => rfl

theorem withLineCount_self (s : Conv) : s.withLineCount s.stats.lineCount = s := rfl

theorem convertLoop_lineCount (cs : List Char) : ∀ (s : Conv) (n : Nat),
    (convertLoop (s.withLineCount n) cs).map (fun x => x.withLineCount 0) =
      (convertLoop s cs).map (fun x => x.withLineCount 0) := by
  induction cs with
  | nil => intro s n; rfl
  | cons c cs ih =>
    intro s n
    have hstep := convertStep_lineCount s n c
    unfold convertLoop
    cases h1 : convertStep (s.withLineCount n) c with
    | error e1 =>
      cases h2 : convertStep s c with
      | error e2 =>
        rw [h1, h2] at hstep
        exact hstep
      | ok b =>
        rw [h1, h2] at hstep
        cases hstep
    | ok a =>
      cases h2 : convertStep s c with
      | error e2 =>
        rw [h1, h2] at hstep
        cases hstep
      | ok b =>
        rw [h1, h2] at hstep
        simp only [Except.map, Except.ok.injEq] at hstep
        simp only
        have ha := ih (a.withLineCount 0) a.stats.lineCount
        have hb := ih (b.withLineCount 0) b.stats.lineCount
        have ea : (a.withLineCount 0).withLineCount a.stats.lineCount = a := rfl
        have eb : (b.withLineCount 0).withLineCount b.stats.lineCount = b := rfl
        rw [ea] at ha
        rw [eb] at hb
        rw [ha, hb, hstep]

/-- Reading `\r` and reading `\n` do the same. -/
theorem scanByte_terminator (s : Scan) : scanByte s '\r' = scanByte s '\n' := by
  unfold scanByte
  cases hg : s.isReadingGarbage with
  | true => simp [isTerminator]
  | false =>
    cases hl : s.savedLine with
    | nil => simp [isTerminator, assertLineBufCount, assertFirstByte]
    | cons x xs =>
      have hd : ∀ c : Char, (x :: (xs ++ [c])).dropLast = x :: xs := by
        intro c
        rw [← List.cons_append, List.dropLast_concat]
      simp [isTerminator, assertLineBufCount, assertFirstByte, hd]

/-- After a terminator the scanner is at the start of a line. -/
theorem scanByte_after_terminator {s s' : Scan} {c : Char} {ev : Event}
    (ht : isTerminator c = true) (h : scanByte s c = .ok (s', ev)) :
    s'.savedLine = [] ∧ s'.isReadingGarbage = true := by
  unfold scanByte at h
  split at h
  · simp only [ht, if_true] at h
    split at h
    · rename_i hg
      injection h with h
      injection h with h _
      rw [← h]
      exact ⟨rfl, hg⟩
    · split at h
      · split at h
        · split at h
          · injection h with h
            injection h with h _
            rw [← h]
            exact ⟨rfl, rfl⟩
          · cases h
        · cases h
      · cases h
  · cases h

/-- The `\n` of a `\r\n` pair is only counted. -/
theorem convertStep_second_terminator {s s' : Conv} (h : convertStep s '\r' = .ok s') :
    convertStep s' '\n' = .ok (s'.withLineCount (s'.stats.lineCount + 1)) := by
  have hfresh : s'.scan.savedLine = [] ∧ s'.scan.isReadingGarbage = true := by
    unfold convertStep at h
    split at h
    · cases h
    · rename_i scan hs
      injection h with h
      rw [← h]
      exact scanByte_after_terminator (by decide) hs
    · rename_i scan hs
      injection h with h
      rw [← h]
      exact scanByte_after_terminator (by decide) hs
    · rename_i scan line token hs
      split at h
      · cases h
      · injection h with h
        rw [← h]
        exact scanByte_after_terminator (by decide) hs
  unfold convertStep
  rw [scanByte_skip s'.scan '\n' hfresh.2 (by rw [hfresh.1]; decide) (by decide)]
  simp only [Conv.withLineCount]
  have : ({ s'.scan with savedLine := [] } : Scan) = s'.scan := by
    cases hsc : s'.scan with
    | mk sl b g =>
      rw [hsc] at hfresh
      simp only at hfresh
      simp [hfresh.1]
  rw [this]

/-! ## An invariant of the line scanner -/

theorem scanInv_fresh : ScanInv (Scan.fresh []) :=
  ⟨fun c hc => absurd hc (List.not_mem_nil c), fun c hc => absurd hc (List.not_mem_nil c),
    fun h => by simp [Scan.fresh] at h⟩

theorem mem_concat_of {p : Char → Prop} {l : List Char} {c : Char}
    (hl : ∀ x ∈ l, p x) (hc : p c) : ∀ x ∈ l ++ [c], p x := by
  intro x hx
  rcases List.mem_append.1 hx with h | h
  · exact hl x h
  · rw [List.mem_singleton] at h
    rw [h]
    exact hc

theorem scanByte_inv {s s' : Scan} {c : Char} {ev : Event} (hinv : ScanInv s)
    (h : scanByte s c = .ok (s', ev)) : ScanInv s' := by
  obtain ⟨h1, h2, h3⟩ := hinv
  unfold scanByte at h
  split at h
  · simp only at h
    split at h
    · rename_i hg
      split at h
      · injection h with h
        injection h with h _
        rw [← h]
        exact ⟨fun c hc => absurd hc (List.not_mem_nil c), h2, fun hf => by simp [hg] at hf⟩
      · rename_i ht
        split at h
        · rename_i hcol
          injection h with h
          injection h with h _
          rw [← h]
          refine ⟨mem_concat_of h1 (by simpa using ht),
            fun c hc => absurd hc (List.not_mem_nil c), fun _ => ⟨s.savedLine, ?_⟩⟩
          simp only [hcol]
        · injection h with h
          injection h with h _
          rw [← h]
          exact ⟨mem_concat_of h1 (by simpa using ht), h2, fun hf => by simp [hg] at hf⟩
    · rename_i hg
      split at h
      · split at h
        · split at h
          · split at h
            · injection h with h
              injection h with h _
              rw [← h]
              exact ⟨fun c hc => absurd hc (List.not_mem_nil c), h2, fun hf => by simp at hf⟩
            · cases h
          · cases h
        · cases h
      · rename_i ht
        split at h
        · injection h with h
          injection h with h _
          rw [← h]
          exact ⟨mem_concat_of h1 (by simpa using ht), h2, fun hf => by simp at hf⟩
        · rename_i hrc
          split at h
          · injection h with h
            injection h with h _
            rw [← h]
            have hrc' : isRangeChar c = true := by simpa using hrc
            obtain ⟨g, hgl⟩ := h3 (by simpa using hg)
            refine ⟨mem_concat_of h1 (by simpa using ht), mem_concat_of h2 hrc',
              fun _ => ⟨g, ?_⟩⟩
            simp only [hgl, List.append_assoc, List.cons_append]
          · cases h
  · cases h

theorem convertStep_inv {s s' : Conv} {c : Char} (hinv : ScanInv s.scan)
    (h : convertStep s c = .ok s') : ScanInv s'.scan := by
  unfold convertStep at h
  split at h
  · cases h
  · rename_i scan hs
    injection h with h
    rw [← h]
    exact scanByte_inv hinv hs
  · rename_i scan hs
    injection h with h
    rw [← h]
    exact scanByte_inv hinv hs
  · rename_i scan line token hs
    split at h
    · cases h
    · injection h with h
      rw [← h]
      exact scanByte_inv hinv hs

theorem convertLoop_inv (cs : List Char) : ∀ {s s' : Conv}, ScanInv s.scan →
    convertLoop s cs = .ok s' → ScanInv s'.scan := by
  induction cs with
  | nil =>
    intro s s' hinv h
    injection h with h
    rw [← h]
    exact hinv
  | cons c cs ih =>
    intro s s' hinv h
    unfold convertLoop at h
    split at h
    · cases h
    · rename_i s1 h1
      exact ih (convertStep_inv hinv h1) h

/-- The record made on a terminator is the two buffers as they stand. -/
theorem scanByte_record_eq {s s' : Scan} {c : Char} {line token : List Char}
    (h : scanByte s c = .ok (s', .record line token)) :
    s.isReadingGarbage = false ∧ line = s.savedLine ∧ token = cstr s.buf := by
  unfold scanByte at h
  split at h
  · simp only at h
    split at h
    · split at h
      · injection h with h
        injection h with _ h
        cases h
      · split at h
        · injection h with h
          injection h with _ h
          cases h
        · injection h with h
          injection h with _ h
          cases h
    · rename_i hg
      split at h
      · split at h
        · split at h
          · split at h
            · injection h with h
              injection h with _ h
              injection h with hl ht
              rw [List.dropLast_concat] at hl
              exact ⟨by simpa using hg, hl.symm, ht.symm⟩
            · cases h
          · cases h
        · cases h
      · split at h
        · injection h with h
          injection h with _ h
          cases h
        · split at h
          · injection h with h
            injection h with _ h
            cases h
          · cases h
  · cases h

/-! ## A range that ends at 255.255.255.255 -/

theorem splitLoop_error (e : Nat) : ∀ fuel t b w err, splitLoop e fuel t b w = .error err →
    err = .assertion ∨ err = .fuel := by
  intro fuel
  induction fuel with
  | zero =>
    intro t b w err h
    unfold splitLoop at h
    injection h with h
    exact Or.inr h.symm
  | succ fuel ih =>
    intro t b w err h
    by_cases ht : t < e
    · obtain ⟨q, _, _, _, _, heq⟩ := splitLoop_step e fuel t b w ht
      rw [heq] at h
      split at h
      · split at h
        · rename_i e1 hrec
          injection h with h
          subst h
          exact ih _ _ _ _ hrec
        · cases h
      · injection h with h
        exact Or.inl h.symm
    · unfold splitLoop at h
      rw [if_neg ht] at h
      split at h
      · cases h
      · injection h with h
        exact Or.inl h.symm

/-- On the splitting path, a range that starts below 255.255.255.255 and ends
there makes `rangeToNetworks` stop on its assertion. -/
theorem rangeToNetworks_wrap_aborts (begin_ end_ : List Char) (start : Nat) (st : Stats)
    (hb : parseAddress begin_ = .ok start) (he : parseAddress end_ = .ok 4294967295)
    (hlt : start < 4294967295) (hm : maskLength (not32 (sub32 4294967295 start)) = -1) :
    rangeToNetworks begin_ end_ st = .error .assertion := by
  unfold rangeToNetworks
  rw [hb, he]
  simp only
  rw [if_pos hm]
  cases h : splitLoop 4294967295 993 start start 0 with
  | ok blocks => exact absurd h (splitLoop_wraps 993 start start 0 blocks hlt)
  | error err =>
    rcases splitLoop_error _ _ _ _ _ _ h with h1 | h1
    · rw [h1]
    · rw [h1] at h
      exact absurd h (splitLoop_ne_fuel _ 993 _ _ 0 (by decide) (by decide))

theorem splitLoop_wrap_first (fuel : Nat) :
    splitLoop 4294967295 (fuel + 1) 4294967293 4294967293 0 =
      match splitLoop 4294967295 fuel 0 0 18 with
      | .error e => .error e
      | .ok rest => .ok ((4294967293, 1) :: rest) := rfl

theorem splitLoop_wrap_second (fuel : Nat) :
    splitLoop 4294967295 (fuel + 1) 0 0 18 =
      match splitLoop 4294967295 fuel 2147483648 2147483648 28 with
      | .error e => .error e
      | .ok rest => .ok ((0, 1) :: rest) := rfl

/-! ## Carriage return and line feed -/

theorem convertStep_terminator (s : Conv) : convertStep s '\r' = convertStep s '\n' := by
  unfold convertStep
  rw [scanByte_terminator]

theorem convertLoop_crlf (ls : List (List Char)) : ∀ s : Conv,
    (convertLoop s (joinLines ['\r', '\n'] ls)).map (fun x => x.withLineCount 0) =
      (convertLoop s (joinLines ['\n'] ls)).map (fun x => x.withLineCount 0) := by
  induction ls with
  | nil => intro s; rfl
  | cons l ls ih =>
    intro s
    simp only [joinLines, List.append_assoc]
    rw [convertLoop_append, convertLoop_append]
    cases convertLoop s l with
    | error e => rfl
    | ok s1 =>
      simp only [List.cons_append, List.nil_append]
      rw [convertLoop, convertLoop, convertStep_terminator]
      cases h : convertStep s1 '\n' with
      | error e => rfl
      | ok s2 =>
        simp only
        rw [← convertStep_terminator] at h
        rw [convertLoop, convertStep_second_terminator h]
        simp only
        rw [convertLoop_lineCount, ih]

theorem convert_text (input : List Char) (st : Stats) :
    (convert input st).map Prod.fst =
      ((convertLoop { scan := Scan.fresh [], out := [], stats := st } input).map
        (fun x => x.withLineCount 0)).map (fun x => x.out) := by
  unfold convert
  cases convertLoop { scan := Scan.fresh [], out := [], stats := st } input with
  | error e => rfl
  | ok s => rfl

/-! ## Claims on the line scanner and on the remaining range cases -/

/-- C11, as stated, fails: in the line `a\0b:1-1` the part before the colon
has no colon and no terminator, the token has only digits and a dash, and the
line fits the buffers, but the comment line written is `# a`, the text of
`savedLine` up to its first NUL byte, not the whole line. -/
theorem convert_nul_in_comment :
    convert "a\x00b:1-1\n".toList Stats.zero = .ok ("# a\n1\n".toList, ⟨1, 1, 0, 0⟩) ∧
    outputRange "1-1".toList ⟨1, 0, 0, 0⟩ = .ok ("1\n".toList, ⟨1, 1, 0, 0⟩) ∧
    "# a\n1\n".toList ≠ "# a\x00b:1-1\n".toList ++ "1\n".toList := by decide

/-- C11, amended: for a line `G:T` and a terminator, read at the start of a
line, where `G` has no colon, no terminator and no NUL byte, `T` has only
digits, dots and dashes, the line has at most 1023 bytes and `T` at most 31,
`convert` counts the line, writes `# `, the whole line and a newline, and then
what `outputRange` writes for `T`; when `outputRange` does not return, neither
does `convert`. The same holds for `convert` on an input made of that line. -/
theorem convert_range_line (g t buf0 out : List Char) (term : Char) (st : Stats)
    (hg : ∀ c ∈ g, c ≠ ':' ∧ isTerminator c = false ∧ c ≠ '\x00')
    (ht : ∀ c ∈ t, isRangeChar c = true) (hterm : isTerminator term = true)
    (hline : (g ++ ':' :: t).length ≤ 1023) (htok : t.length ≤ 31) :
    convertLoop { scan := Scan.fresh buf0, out := out, stats := st }
        ((g ++ ':' :: t) ++ [term]) =
      (match outputRange t { st with lineCount := st.lineCount + 1 } with
        | .error e => .error e
        | .ok (text, st') =>
          .ok { scan := Scan.fresh t,
                out := out ++ ('#' :: ' ' :: (g ++ ':' :: t) ++ '\n' :: text),
                stats := st' }) ∧
    convert ((g ++ ':' :: t) ++ [term]) st =
      (match outputRange t { st with lineCount := st.lineCount + 1 } with
        | .error e => .error e
        | .ok (text, st') => .ok ('#' :: ' ' :: (g ++ ':' :: t) ++ '\n' :: text, st')) := by
  have main : ∀ buf0 out, convertLoop { scan := Scan.fresh buf0, out := out, stats := st }
        ((g ++ ':' :: t) ++ [term]) =
      (match outputRange t { st with lineCount := st.lineCount + 1 } with
        | .error e => .error e
        | .ok (text, st') =>
          .ok { scan := Scan.fresh t,
                out := out ++ ('#' :: ' ' :: (g ++ ':' :: t) ++ '\n' :: text),
                stats := st' }) := by
    intro buf0 out
    simp only [List.length_append, List.length_cons] at hline
    have e : (g ++ ':' :: t) ++ [term] = g ++ (':' :: (t ++ [term])) := by simp
    rw [e, convertLoop_append,
      convertLoop_garbage g _ rfl (by simp [Scan.fresh]; omega) (fun c hc => ⟨(hg c hc).2.1, (hg c hc).1⟩)]
    simp only [Scan.fresh, List.nil_append]
    rw [convertLoop, convertStep, scanByte_colon _ rfl (by simp only; omega)]
    simp only
    rw [convertLoop_append,
      convertLoop_range t _ rfl (by simp; omega) (by simp; omega) ht]
    simp only [List.nil_append]
    have hline' : g ++ [':'] ++ t = g ++ ':' :: t := by simp
    have hfirst : ∃ first rest, g ++ [':'] ++ t = first :: rest ∧ isTerminator first = false := by
      cases g with
      | nil => exact ⟨':', t, by simp, by decide⟩
      | cons x xs => exact ⟨x, xs ++ [':'] ++ t, by simp, (hg x (List.mem_cons_self x xs)).2.1⟩
    obtain ⟨first, rest, hfr, hft⟩ := hfirst
    rw [convertLoop, convertStep,
      scanByte_record _ term first rest rfl hfr hft (by simp; omega) (by simp only; omega) hterm]
    simp only
    have hnul : ∀ c ∈ g ++ ':' :: t, c ≠ '\x00' := by
      intro c hc
      rcases List.mem_append.1 hc with h | h
      · exact (hg c h).2.2
      · rcases List.mem_cons.1 h with h | h
        · rw [h]; decide
        · exact (isRangeChar_facts (ht c h)).2.2
    have hhead : (g ++ ':' :: t).head? ≠ some '\x00' := by
      intro h
      have := List.mem_of_mem_head? h
      exact hnul _ this rfl
    have htnul : cstr t = t := cstr_of_no_nul t (fun c hc => (isRangeChar_facts (ht c hc)).2.2)
    rw [hline', htnul, emitRecord_eq _ _ _ _ hhead (cstr_of_no_nul _ hnul)]
    cases outputRange t { st with lineCount := st.lineCount + 1 } with
    | error err => rfl
    | ok r =>
      obtain ⟨text, st'⟩ := r
      simp [convertLoop, Scan.fresh]
  refine ⟨main buf0 out, ?_⟩
  unfold convert
  rw [main [] []]
  cases outputRange t { st with lineCount := st.lineCount + 1 } with
  | error err => rfl
  | ok r =>
    obtain ⟨text, st'⟩ := r
    simp

theorem convert_range_line_witness :
    convert (("junk text".toList ++ ':' :: "10.0.0.0-10.0.0.0".toList) ++ ['\n']) Stats.zero =
      (match outputRange "10.0.0.0-10.0.0.0".toList
          { Stats.zero with lineCount := Stats.zero.lineCount + 1 } with
        | .error e => .error e
        | .ok (text, st') =>
          .ok ('#' :: ' ' :: ("junk text".toList ++ ':' :: "10.0.0.0-10.0.0.0".toList) ++
            '\n' :: text, st')) :=
  (convert_range_line "junk text".toList "10.0.0.0-10.0.0.0".toList [] [] '\n' Stats.zero
    (by decide) (by decide) (by decide) (by decide) (by decide)).2

/-- C12, as stated, fails: a line of 1024 bytes `a` has no colon, and
`convert` stops on the assertion `lineBufCount < sizeof(savedLine)` when it
reads the terminator instead of returning to the start-of-line state. -/
theorem convert_long_line_aborts :
    (∀ c ∈ List.replicate 1024 'a', c ≠ ':') ∧
    convert (List.replicate 1024 'a' ++ ['\n']) Stats.zero = .error .assertion := by
  constructor
  · intro c hc
    rw [List.eq_of_mem_replicate hc]
    decide
  · unfold convert
    rw [convertLoop_append, convertLoop_garbage _ _ rfl
      (by simp only [Scan.fresh, List.length_nil, List.length_replicate]; omega)
      (fun c hc => by rw [List.eq_of_mem_replicate hc]; decide)]
    simp only [Scan.fresh, List.nil_append]
    rw [convertLoop, convertStep, scanByte,
      if_neg (by simp only [List.length_replicate]; omega)]

/-- C12, amended: for a line of at most 1023 bytes with no colon and no
terminator, followed by a terminator and read at the start of a line,
`convert` writes nothing, counts the line and is back in the start-of-line
state: garbage state, empty line buffer. -/
theorem convert_plain_line (line buf0 out : List Char) (term : Char) (st : Stats)
    (hl : ∀ c ∈ line, c ≠ ':' ∧ isTerminator c = false) (hterm : isTerminator term = true)
    (hlen : line.length ≤ 1023) :
    convertLoop { scan := Scan.fresh buf0, out := out, stats := st } (line ++ [term]) =
      .ok { scan := Scan.fresh buf0, out := out,
            stats := { st with lineCount := st.lineCount + 1 } } ∧
    convert (line ++ [term]) st = .ok ([], { st with lineCount := st.lineCount + 1 }) := by
  have main : ∀ buf0 out,
      convertLoop { scan := Scan.fresh buf0, out := out, stats := st } (line ++ [term]) =
        .ok { scan := Scan.fresh buf0, out := out,
              stats := { st with lineCount := st.lineCount + 1 } } := by
    intro buf0 out
    rw [convertLoop_append, convertLoop_garbage line _ rfl (by simp [Scan.fresh]; omega)
      (fun c hc => ⟨(hl c hc).2, (hl c hc).1⟩)]
    simp only [Scan.fresh, List.nil_append]
    rw [convertLoop, convertStep, scanByte_skip _ term rfl (by simp only; omega) hterm]
    simp [convertLoop]
  refine ⟨main buf0 out, ?_⟩
  unfold convert
  rw [main [] []]

theorem convert_plain_line_witness :
    convert ("nothing here".toList ++ ['\n']) Stats.zero =
      .ok ([], { Stats.zero with lineCount := Stats.zero.lineCount + 1 }) :=
  (convert_plain_line "nothing here".toList [] [] '\n' Stats.zero (by decide) (by decide)
    (by decide)).2

/-- C13: for every sequence of lines, the text `convert` writes when each
line ends in `\r\n` is the text it writes when each line ends in `\n`, and
when one run stops on a fault so does the other, on the same fault: the `\n`
of a pair is read at the start of a line and is only counted. -/
theorem convert_crlf_same_text (ls : List (List Char)) (st : Stats) :
    (convert (joinLines ['\r', '\n'] ls) st).map Prod.fst =
      (convert (joinLines ['\n'] ls) st).map Prod.fst := by
  rw [convert_text, convert_text, convertLoop_crlf]

/-- C14 fails on the code: for the token `1.2.3.4`, which has no dash,
`outputRange` does not return (the assertion on `firstHalfLen` fails), and
`convert` on the line `x:1.2.3.4` does not return either, so nothing follows. -/
theorem outputRange_no_dash_aborts :
    strchr '-' "1.2.3.4".toList = none ∧
    outputRange "1.2.3.4".toList Stats.zero = .error .assertion ∧
    convert "x:1.2.3.4\n".toList Stats.zero = .error .assertion ∧
    convert "x:1.2.3.4\ny:10.0.0.0-10.0.0.0\n".toList Stats.zero = .error .assertion := by
  decide

set_option maxRecDepth 100000 in
/-- C15 fails on the code: 255.255.255.253-255.255.255.255 takes the splitting
path and its first block has top address 0xFFFFFFFF; the cursor then wraps to
0, which is below the end, so the loop goes on with the block 0.0.0.0/1 and
further ones until the assertion on `writtenChars` fails. -/
theorem splitting_wraps_past_top :
    maskLength (not32 (sub32 4294967295 4294967293)) = -1 ∧
    growMaskLen 4294967295 4294967293 31 1 = .ok 1 ∧
    maskFromLength 1 = .ok 2147483648 ∧
    4294967293 ||| not32 2147483648 = 4294967295 ∧
    (∀ fuel, splitLoop 4294967295 (fuel + 2) 4294967293 4294967293 0 =
      match splitLoop 4294967295 fuel 2147483648 2147483648 28 with
      | .error e => .error e
      | .ok rest => .ok ((4294967293, 1) :: (0, 1) :: rest)) ∧
    rangeToNetworks "255.255.255.253".toList "255.255.255.255".toList Stats.zero =
      .error .assertion := by
  refine ⟨by decide, by decide, by decide, by decide, fun fuel => ?_, by decide⟩
  rw [splitLoop_wrap_first, splitLoop_wrap_second]
  cases splitLoop 4294967295 fuel 2147483648 2147483648 28 with
  | error e => rfl
  | ok rest => rfl

set_option maxRecDepth 100000 in
/-- C16 fails on the code: for 0.0.0.1-255.255.255.255 (start < end,
splitting path) the loop is still running after 63 blocks, and
`rangeToNetworks` ends on the assertion on `writtenChars`. -/
theorem splitting_reaches_assertion :
    parseAddress "0.0.0.1".toList = .ok 1 ∧
    parseAddress "255.255.255.255".toList = .ok 4294967295 ∧
    maskLength (not32 (sub32 4294967295 1)) = -1 ∧
    splitLoop 4294967295 63 1 1 0 = .error .fuel ∧
    splitLoop 4294967295 993 1 1 0 = .error .assertion ∧
    rangeToNetworks "0.0.0.1".toList "255.255.255.255".toList Stats.zero =
      .error .assertion := by decide

/-- C17 fails on the code: the token `111.111.111.111-111.111.111.1111` has 32
bytes; all of them are stored in `buf` without the assertion
`bufCount <= sizeof buf` failing, and at the terminator the NUL is written one
past the end of `buf`; only a 33rd byte makes the assertion fail. -/
theorem token_of_32_bytes_passes :
    "111.111.111.111-111.111.111.1111".toList.length = 32 ∧
    convertLoop { scan := Scan.fresh [], out := [], stats := Stats.zero }
        "x:111.111.111.111-111.111.111.1111".toList =
      .ok { scan := { savedLine := "x:111.111.111.111-111.111.111.1111".toList,
                      buf := "111.111.111.111-111.111.111.1111".toList,
                      isReadingGarbage := false },
            out := [], stats := Stats.zero } ∧
    convert "x:111.111.111.111-111.111.111.1111\n".toList Stats.zero = .error .undefined ∧
    convert "x:111.111.111.111-111.111.111.1111".toList Stats.zero = .ok ([], Stats.zero) ∧
    convert "x:111.111.111.111-111.111.111.11111\n".toList Stats.zero = .error .assertion := by
  decide

/-- C18, as stated, fails: after `a\0b:1-1` a terminator makes the record of
line `a\0b:1-1` and token `1-1`, but the comment handed to `fprintf` is the
text of the line buffer up to its first NUL byte, `a`, which does not end with
a colon followed by the token. -/
theorem record_comment_cut_at_nul :
    convertLoop { scan := Scan.fresh [], out := [], stats := Stats.zero } "a\x00b:1-1".toList =
      .ok { scan := { savedLine := "a\x00b:1-1".toList, buf := "1-1".toList,
                      isReadingGarbage := false },
            out := [], stats := Stats.zero } ∧
    scanByte { savedLine := "a\x00b:1-1".toList, buf := "1-1".toList,
               isReadingGarbage := false } '\n' =
      .ok ({ savedLine := [], buf := "1-1".toList, isReadingGarbage := true },
        .record "a\x00b:1-1".toList "1-1".toList) ∧
    cstr "a\x00b:1-1".toList = "a".toList ∧
    emitRecord "a\x00b:1-1".toList "1-1".toList [] Stats.zero =
      .ok ("# a\n1\n".toList, ⟨0, 1, 0, 0⟩) ∧
    ¬ ∃ g, cstr "a\x00b:1-1".toList = g ++ ':' :: "1-1".toList := by
  refine ⟨by decide, by decide, by decide, by decide, ?_⟩
  rintro ⟨g, hg⟩
  have h1 : cstr "a\x00b:1-1".toList = "a".toList := by decide
  rw [h1] at hg
  have := congrArg List.length hg
  simp at this

/-- C18, amended: whatever bytes `convert` has read without stopping, a record
made at the next byte has a token of digits, dots and dashes only, hence
without a colon, and the stored line ends with a colon followed by exactly
that token: the token is the part of the line after its last colon. When the
line holds no NUL byte, the comment handed to `fprintf`, the text of the line
buffer up to its first NUL, ends with a colon followed by exactly that token
too. -/
theorem record_token_follows_last_colon (input : List Char) (st : Stats) (s : Conv) (c : Char)
    (sc : Scan) (line token : List Char)
    (hrun : convertLoop { scan := Scan.fresh [], out := [], stats := st } input = .ok s)
    (hrec : scanByte s.scan c = .ok (sc, .record line token)) :
    (∀ x ∈ token, isRangeChar x = true) ∧ (∀ x ∈ token, x ≠ ':') ∧
    (∃ g, line = g ++ ':' :: token) ∧
    ((∀ x ∈ line, x ≠ '\x00') → ∃ g, cstr line = g ++ ':' :: token) := by
  have hinv := convertLoop_inv input scanInv_fresh hrun
  obtain ⟨h1, h2, h3⟩ := hinv
  obtain ⟨hg, hl, ht⟩ := scanByte_record_eq hrec
  have htok : token = s.scan.buf := by
    rw [ht]
    exact cstr_of_no_nul _ (fun x hx => (isRangeChar_facts (h2 x hx)).2.2)
  obtain ⟨g, hgl⟩ := h3 hg
  have hline : line = g ++ ':' :: token := by rw [hl, htok, hgl]
  refine ⟨?_, ?_, ⟨g, hline⟩, fun hnul => ⟨g, ?_⟩⟩
  · intro x hx
    rw [htok] at hx
    exact h2 x hx
  · intro x hx
    rw [htok] at hx
    exact (isRangeChar_facts (h2 x hx)).2.1
  · rw [cstr_of_no_nul line hnul]
    exact hline

theorem record_token_follows_last_colon_witness :
    (∀ x ∈ "1-1".toList, isRangeChar x = true) ∧ (∀ x ∈ "1-1".toList, x ≠ ':') ∧
    (∃ g, "a:b:1-1".toList = g ++ ':' :: "1-1".toList) ∧
    ((∀ x ∈ "a:b:1-1".toList, x ≠ '\x00') →
      ∃ g, cstr "a:b:1-1".toList = g ++ ':' :: "1-1".toList) :=
  record_token_follows_last_colon "a:b:1-1".toList Stats.zero
    { scan := { savedLine := "a:b:1-1".toList, buf := "1-1".toList, isReadingGarbage := false },
      out := [], stats := Stats.zero } '\n'
    { savedLine := [], buf := "1-1".toList, isReadingGarbage := true }
    "a:b:1-1".toList "1-1".toList (by decide) (by decide)

/-- C19: whatever bytes `convert` has read without stopping, if it is in the
range state and the next byte is a terminator, both assertions made there
hold: more than one byte is stored for the line, and the first stored byte is
not a terminator. When the line buffer has room for the terminator, no
assertion at all fails at that byte. -/
theorem range_terminator_assertions_hold (input : List Char) (st : Stats) (s : Conv) (c : Char)
    (hrun : convertLoop { scan := Scan.fresh [], out := [], stats := st } input = .ok s)
    (hrange : s.scan.isReadingGarbage = false) (hterm : isTerminator c = true) :
    assertLineBufCount (s.scan.savedLine ++ [c]) = true ∧
    assertFirstByte (s.scan.savedLine ++ [c]) = true ∧
    (s.scan.savedLine.length < 1024 → scanByte s.scan c ≠ .error .assertion) := by
  have hinv := convertLoop_inv input scanInv_fresh hrun
  obtain ⟨h1, h2, h3⟩ := hinv
  obtain ⟨g, hgl⟩ := h3 hrange
  have hne : ∃ first rest, s.scan.savedLine = first :: rest := by
    rw [hgl]
    cases g with
    | nil => exact ⟨':', s.scan.buf, rfl⟩
    | cons x xs => exact ⟨x, xs ++ ':' :: s.scan.buf, rfl⟩
  obtain ⟨first, rest, hfr⟩ := hne
  have hfirst : isTerminator first = false := h1 first (by rw [hfr]; exact List.mem_cons_self _ _)
  have a1 : assertLineBufCount (s.scan.savedLine ++ [c]) = true := by
    simp [assertLineBufCount, hfr]
  have a2 : assertFirstByte (s.scan.savedLine ++ [c]) = true := by
    simp [assertFirstByte, hfr, hfirst]
  refine ⟨a1, a2, fun hlen => ?_⟩
  unfold scanByte
  rw [if_pos hlen]
  simp only [hrange, hterm, if_true]
  rw [if_neg (by simp), if_pos a1]
  split
  · intro h
    cases h
  · intro h
    cases h

theorem range_terminator_assertions_hold_witness :
    assertLineBufCount ("a:1".toList ++ ['\n']) = true ∧
    assertFirstByte ("a:1".toList ++ ['\n']) = true ∧
    (("a:1".toList).length < 1024 →
      scanByte { savedLine := "a:1".toList, buf := "1".toList, isReadingGarbage := false } '\n' ≠
        .error .assertion) :=
  range_terminator_assertions_hold "a:1".toList Stats.zero
    { scan := { savedLine := "a:1".toList, buf := "1".toList, isReadingGarbage := false },
      out := [], stats := Stats.zero } '\n' (by decide) rfl (by decide)

/-- C20: for texts that parse to `start > end` (the text of `begin` at most 15
bytes), the splitting loop returns at its first test without a block. When
`maskLength(~(end - start))` is `-1`, `rangeToNetworks` returns the empty
string and counts a complex range; otherwise it returns the single line made
of the text of `begin`, `/` and that mask length, computed on the wrapped
difference. -/
theorem rangeToNetworks_reversed (begin_ end_ : List Char) (start endAddr : Nat) (st : Stats)
    (hb : parseAddress begin_ = .ok start) (he : parseAddress end_ = .ok endAddr)
    (hgt : endAddr < start) (hlen : begin_.length ≤ 15) :
    splitLoop endAddr 993 start start 0 = .ok [] ∧
    (maskLength (not32 (sub32 endAddr start)) = -1 →
      rangeToNetworks begin_ end_ st =
        .ok (⟨[], []⟩, { st with complexRangeCount := st.complexRangeCount + 1 })) ∧
    (maskLength (not32 (sub32 endAddr start)) ≠ -1 →
      ∃ p : Nat, p ≤ 32 ∧ maskLength (not32 (sub32 endAddr start)) = (p : Int) ∧
        rangeToNetworks begin_ end_ st =
          .ok (⟨begin_ ++ '/' :: Nat.toDigits 10 p ++ ['\n'], [(start, p)]⟩,
            { st with networkAddressCount := st.networkAddressCount + 1 })) := by
  have hloop : splitLoop endAddr 993 start start 0 = .ok [] := by
    unfold splitLoop
    rw [if_neg (by omega), if_pos (by decide)]
  refine ⟨hloop, fun hm => ?_, fun hm => ?_⟩
  · unfold rangeToNetworks
    rw [hb, he]
    simp only
    rw [if_pos hm, hloop]
    rfl
  · rcases maskLengthLoop_scan (not32 (sub32 endAddr start)) 32 0 with
      ⟨p, hp, h1, _⟩ | ⟨h1, _⟩
    · have hml : maskLength (not32 (sub32 endAddr start)) = (p : Int) := by
        rw [maskLength, h1]; simp
      refine ⟨p, hp, hml, ?_⟩
      have dq2 : (Nat.toDigits 10 p).length ≤ 2 := by
        by_cases h1 : p < 10
        · rw [toDigits_small p h1]; simp
        · rw [toDigits_step p (by omega), toDigits_small _ (by omega)]; simp
      unfold rangeToNetworks
      rw [hb, he]
      simp only
      rw [if_neg hm, hml, printInt_natCast, if_pos (by simp; omega)]
      simp
    · exact absurd h1 hm

theorem rangeToNetworks_reversed_witness :
    splitLoop 167772160 993 167772161 167772161 0 = .ok [] ∧
    (maskLength (not32 (sub32 167772160 167772161)) = -1 →
      rangeToNetworks "10.0.0.1".toList "10.0.0.0".toList Stats.zero =
        .ok (⟨[], []⟩,
          { Stats.zero with complexRangeCount := Stats.zero.complexRangeCount + 1 })) ∧
    (maskLength (not32 (sub32 167772160 167772161)) ≠ -1 →
      ∃ p : Nat, p ≤ 32 ∧ maskLength (not32 (sub32 167772160 167772161)) = (p : Int) ∧
        rangeToNetworks "10.0.0.1".toList "10.0.0.0".toList Stats.zero =
          .ok (⟨"10.0.0.1".toList ++ '/' :: Nat.toDigits 10 p ++ ['\n'], [(167772161, p)]⟩,
            { Stats.zero with networkAddressCount := Stats.zero.networkAddressCount + 1 })) :=
  rangeToNetworks_reversed "10.0.0.1".toList "10.0.0.0".toList 167772161 167772160 Stats.zero
    (by decide) (by decide) (by decide) (by decide)

end IpListTransform
